import Mathlib

/-!
Shallow embedding of `merge-translations`, a CLI utility that merges JSON
translation files into one deduplicated, optionally sorted document.

The repository contains three variants of the program:
* an early variant (`src/index.ts`) with no command-line options, embedded
  below as the `Legacy` definitions;
* the main variant (with `--ignore-errors`, `--no-sort`, `--no-merge-context`),
  embedded as `main`;
* the md5-checking variant (adds `--no-md5-check`), embedded as `mainMd5`.

The merge loop accumulates entries into the JavaScript object
`allItems : Record<string, TranslationItem>`, modelled here as an
insertion-ordered association list (`MergeState`); `Object.values` enumerates
in insertion order.  Exceptions thrown out of `main` are modelled by
`Except String`; lines written to stderr are modelled by a list of `Diag`
values, each rendering (via `Diag.render`) to the exact string the code
prints.  The `localeCompare` comparator and the `md5` hash are parameters of
the embedding.
-/

deriving instance DecidableEq for Except

namespace MergeTranslations

/-- A translation entry as it appears in a parsed JSON file.  `context` is
`Option String` because in JavaScript the `context` property may be absent
(`none`) — the TypeScript interface declares `context: string`, but
`JSON.parse` performs no checking. -/
structure TranslationItem where
  key : String
  value : String
  context : Option String
deriving DecidableEq

/-- The output document `{ language, translations }`. -/
structure TranslationObject where
  language : String
  translations : List TranslationItem
deriving DecidableEq

/-- JavaScript truthiness of `item.context`: `undefined` and `""` are falsy. -/
def ctxTruthy : Option String → Bool
  | none => false
  | some s => !s.isEmpty

/-- Command-line options.  `ignoreErrors` defaults to off; `sort`,
`mergeContext` and `md5Check` default to on (they are `--no-...` flags).
The main variant ignores `md5Check`. -/
structure Options where
  ignoreErrors : Bool
  sort : Bool
  mergeContext : Bool
  md5Check : Bool
deriving DecidableEq

/-- The defaults produced by the option parser when no flags are given. -/
def defaultOptions : Options :=
  { ignoreErrors := false, sort := true, mergeContext := true, md5Check := true }

/-- The message of the error thrown on a key conflict (same key, different
values), built exactly as in the source. -/
def conflictMsg (key v1 v2 path : String) : String :=
  "Found duplicate keys with different values:\n" ++
    "Key: " ++ key ++ "\n" ++
    "Value 1: " ++ v1 ++ "\n" ++
    "Value 2: " ++ v2 ++ " (in file " ++ path ++ ")"

/-- The message of the error thrown when reading or parsing a file fails. -/
def loadErrorMsg (path msg : String) : String :=
  "Couldn't load JSON from " ++ path ++ ": " ++ msg

/-- One line written to stderr.  Constructors carry the data interpolated
into the printed string; `Diag.render` produces the exact text. -/
inductive Diag where
  /-- lenient-mode warning for a failed file read / JSON parse -/
  | loadWarning (path msg : String)
  /-- context backfilled from an exact-value duplicate -/
  | pulledContext (key ctx : String)
  /-- exact-value duplicate discarded -/
  | skipDuplicate (key : String)
  /-- lenient-mode warning for a key conflict -/
  | conflictWarning (key v1 v2 path : String)
  /-- md5 variant: entry key does not equal the hash of its value -/
  | hashMismatch (value expected actual : String)
  /-- early variant (`src/index.ts`): failed file read / JSON parse -/
  | legacyLoadWarning (path msg : String)
  /-- early variant (`src/index.ts`): key conflict; note the message carries
  no key, values, or file name — the template ends with a dangling `\n  ` -/
  | legacyConflictWarning
deriving DecidableEq

/-- The exact stderr line for each diagnostic. -/
def Diag.render : Diag → String
  | .loadWarning path msg => "Warning: " ++ loadErrorMsg path msg
  | .pulledContext key ctx =>
      "Pulled context from duplicate entry into " ++ key ++ ": " ++ ctx
  | .skipDuplicate key => "Skipping duplicate entry for " ++ key
  | .conflictWarning key v1 v2 path => "Warning: " ++ conflictMsg key v1 v2 path
  | .hashMismatch value expected actual =>
      "Hash mismatch: string \"" ++ value ++ "\" should have key \"" ++
        expected ++ "\" but actually has \"" ++ actual ++ "\""
  | .legacyLoadWarning path msg => loadErrorMsg path msg
  | .legacyConflictWarning => "Warning: Found duplicate keys with different values:\n  "

/-- The object `allItems : Record<string, TranslationItem>`: an
insertion-ordered association list.  String keys of a JavaScript object
enumerate in insertion order. -/
abbrev MergeState := List (String × TranslationItem)

/-- `allItems[k]` restricted to own properties.  A plain JavaScript object
also exposes the inherited `Object.prototype` members (truthy values) for
never-inserted keys such as `"toString"`; that behaviour is modelled by
`jsProcessItem` below.  Claims proved over `processItem` either hypothesise
or ensure that the key read is genuinely stored. -/
def getItem : MergeState → String → Option TranslationItem
  | [], _ => none
  | (k', it) :: rest, k => if k' = k then some it else getItem rest k

/-- `allItems[key] = item` for a key not yet present: appends in insertion
order. -/
def insertItem (st : MergeState) (k : String) (it : TranslationItem) : MergeState :=
  st ++ [(k, it)]

/-- `allItems[key].context = c`: in-place mutation of the stored entry's
`context` field (entries under other keys are untouched). -/
def setContext : MergeState → String → Option String → MergeState
  | [], _, _ => []
  | (k0, it) :: rest, k, c =>
      if k0 = k then (k0, { it with context := c }) :: setContext rest k c
      else (k0, it) :: setContext rest k c

/-- The keys of the object, in enumeration order. -/
def stateKeys (st : MergeState) : List String := st.map Prod.fst

/-- `Object.values(allItems)` under the simplifying assumption that no own
key is an array-index string: then JavaScript enumeration order is insertion
order.  The full enumeration order (array-index keys first, in ascending
numeric order) is modelled by `jsObjectValues` below. -/
def objectValues (st : MergeState) : List TranslationItem := st.map Prod.snd

/-- The body of the inner `for (const item of items)` loop of the main (and
md5) variant, for one entry.  `path` is the file currently being processed.
An `Except.error` is the `Error` thrown in strict mode. -/
def processItem (opts : Options) (path : String) (st : MergeState)
    (item : TranslationItem) : Except String (MergeState × List Diag) :=
  match getItem st item.key with
  | some existing =>
      if existing.value = item.value then
        if opts.mergeContext && !ctxTruthy existing.context && ctxTruthy item.context then
          .ok (setContext st item.key item.context,
            [.pulledContext item.key (item.context.getD "")])
        else
          .ok (st, [.skipDuplicate item.key])
      else
        if !opts.ignoreErrors then
          .error (conflictMsg item.key existing.value item.value path)
        else
          .ok (st, [.conflictWarning item.key existing.value item.value path])
  | none => .ok (insertItem st item.key item, [])

/-- The inner `for (const item of items)` loop over one file's entries. -/
def processItems (opts : Options) (path : String) (st : MergeState) :
    List TranslationItem → Except String (MergeState × List Diag)
  | [] => .ok (st, [])
  | item :: rest =>
      match processItem opts path st item with
      | .error e => .error e
      | .ok (st', log) =>
          match processItems opts path st' rest with
          | .error e => .error e
          | .ok (st'', log') => .ok (st'', log ++ log')

/-- The value of `parsed?.translations || []` as the subsequent `for...of`
loop sees it, for a file whose contents parsed successfully as JSON.  One
further JavaScript case is possible and deliberately not representable here:
a truthy iterable non-array value (a JSON string), which `for...of` iterates
character by character without a `TypeError`; its elements are one-character
strings rather than entry objects, and no claim in this development speaks
about that case. -/
inductive TransValue where
  /-- `parsed` is `null`, or its `translations` property is absent, `null`,
  or otherwise falsy: `parsed?.translations || []` evaluates to `[]` -/
  | absent
  /-- the `translations` property is an array of entries -/
  | arr (items : List TranslationItem)
  /-- the `translations` property is truthy but not iterable (e.g. a number
  or a plain object): `for...of` over it raises a `TypeError` -/
  | nonIterable
deriving DecidableEq

/-- One input file: its path and the outcome of `fs.readFile` +
`JSON.parse`.  `Except.error msg` means the read or the parse rejected with
message `msg`. -/
structure InputFile where
  path : String
  data : Except String TransValue

/-- `loadAndParse` of the main and md5 variants: on a read/parse failure,
strict mode throws `Error(loadErrorMsg ...)`; lenient mode prints a warning
and resolves to `undefined` (here `none`). -/
def loadAndParse (file : InputFile) (ignoreErrors : Bool) :
    Except String (Option TransValue × List Diag) :=
  match file.data with
  | .ok t => .ok (some t, [])
  | .error msg =>
      if !ignoreErrors then .error (loadErrorMsg file.path msg)
      else .ok (none, [.loadWarning file.path msg])

/-- The value and effect of the `for...of` over `parsed?.translations || []`:
an absent or falsy value contributes no items; a truthy non-iterable value
raises a `TypeError` that no handler in the program catches. -/
def itemsOf : Option TransValue → Except String (List TranslationItem)
  | none => .ok []
  | some .absent => .ok []
  | some (.arr items) => .ok items
  | some .nonIterable => .error "TypeError: items is not iterable"

/-- Processing of one input file by the outer loop of `main`. -/
def processFile (opts : Options) (st : MergeState) (file : InputFile) :
    Except String (MergeState × List Diag) :=
  match loadAndParse file opts.ignoreErrors with
  | .error e => .error e
  | .ok (parsed, log) =>
      match itemsOf parsed with
      | .error e => .error e
      | .ok items =>
          match processItems opts file.path st items with
          | .error e => .error e
          | .ok (st', log') => .ok (st', log ++ log')

/-- The outer `for (const path of paths)` loop. -/
def runFiles (opts : Options) (st : MergeState) :
    List InputFile → Except String (MergeState × List Diag)
  | [] => .ok (st, [])
  | f :: fs =>
      match processFile opts st f with
      | .error e => .error e
      | .ok (st', log) =>
          match runFiles opts st' fs with
          | .error e => .error e
          | .ok (st'', log') => .ok (st'', log ++ log')

/-- `translations.sort((a, b) => a.key.localeCompare(b.key))`, with the
locale comparator `lc` (returning a negative, zero, or positive integer) a
parameter of the embedding. -/
def sortTranslations (lc : String → String → Int)
    (translations : List TranslationItem) : List TranslationItem :=
  translations.insertionSort fun a b => lc a.key b.key ≤ 0

/-- `main` of the main variant: fold all files, then optionally sort, and
wrap into the output document.  Returns the final document and the stderr
log, or the message of the uncaught error that aborted the run. -/
def main (lc : String → String → Int) (opts : Options) (files : List InputFile) :
    Except String (TranslationObject × List Diag) :=
  match runFiles opts [] files with
  | .error e => .error e
  | .ok (st, log) =>
      let translations :=
        if opts.sort then sortTranslations lc (objectValues st) else objectValues st
      .ok ({ language := "EN", translations := translations }, log)

/-- The diagnostics produced by the md5-checking pass: one `hashMismatch`
line per entry whose key differs from the hash of its value, in output
order. -/
def hashCheckLog (md5 : String → String) (translations : List TranslationItem) :
    List Diag :=
  (translations.filter fun t => t.key ≠ md5 t.value).map
    fun t => .hashMismatch t.value (md5 t.value) t.key

/-- `main` of the md5 variant: identical to `main`, plus the validation pass
over the final `translations` when `md5Check` is enabled. -/
def mainMd5 (lc : String → String → Int) (md5 : String → String) (opts : Options)
    (files : List InputFile) : Except String (TranslationObject × List Diag) :=
  match runFiles opts [] files with
  | .error e => .error e
  | .ok (st, log) =>
      let translations :=
        if opts.sort then sortTranslations lc (objectValues st) else objectValues st
      let hashLog := if opts.md5Check then hashCheckLog md5 translations else []
      .ok ({ language := "EN", translations := translations }, log ++ hashLog)

/-- The body of the inner loop of the early variant (`src/index.ts`): no
options exist; an exact-value duplicate is skipped and a key conflict only
prints a fixed warning (keeping the first-seen value).  Nothing in this loop
can throw. -/
def processItemLegacy (st : MergeState) (item : TranslationItem) :
    MergeState × List Diag :=
  match getItem st item.key with
  | some existing =>
      if existing.value = item.value then (st, [.skipDuplicate item.key])
      else (st, [.legacyConflictWarning])
  | none => (insertItem st item.key item, [])

/-- The inner loop of the early variant over one file's entries. -/
def processItemsLegacy (st : MergeState) :
    List TranslationItem → MergeState × List Diag
  | [] => (st, [])
  | item :: rest =>
      let (st', log) := processItemLegacy st item
      let (st'', log') := processItemsLegacy st' rest
      (st'', log ++ log')

/-- Processing of one file by the early variant: `loadAndParse` there prints
its message and resolves to `undefined` on failure (it never throws), so a
failed file contributes zero entries; a truthy non-iterable `translations`
value still raises an uncaught `TypeError`. -/
def processFileLegacy (st : MergeState) (file : InputFile) :
    Except String (MergeState × List Diag) :=
  match file.data with
  | .error msg =>
      .ok (st, [.legacyLoadWarning file.path msg])
  | .ok t =>
      match itemsOf (some t) with
      | .error e => .error e
      | .ok items => .ok (processItemsLegacy st items)

/-- The outer loop of the early variant. -/
def runFilesLegacy (st : MergeState) :
    List InputFile → Except String (MergeState × List Diag)
  | [] => .ok (st, [])
  | f :: fs =>
      match processFileLegacy st f with
      | .error e => .error e
      | .ok (st', log) =>
          match runFilesLegacy st' fs with
          | .error e => .error e
          | .ok (st'', log') => .ok (st'', log ++ log')

/-- `main` of the early variant (`src/index.ts`): no sorting, no options. -/
def mainLegacy (files : List InputFile) :
    Except String (TranslationObject × List Diag) :=
  match runFilesLegacy [] files with
  | .error e => .error e
  | .ok (st, log) =>
      .ok ({ language := "EN", translations := objectValues st }, log)

/-- The properties `JSON.stringify` emits for one entry: a property whose
value is `undefined` is omitted from the output object. -/
def itemJsonFields (it : TranslationItem) : List (String × String) :=
  [("key", it.key), ("value", it.value)] ++
    (match it.context with
     | none => []
     | some c => [("context", c)])

/-- The entries a file contributes when the run completes (a file that
failed to load, or whose `translations` value is falsy, contributes none). -/
def fileEntries (f : InputFile) : List TranslationItem :=
  match f.data with
  | .ok (.arr items) => items
  | _ => []

/-- The keys appearing in a file's entries. -/
def fileKeys (f : InputFile) : List String :=
  (fileEntries f).map fun it => it.key

/-- All entries of all input files, in file order. -/
def allEntries : List InputFile → List TranslationItem
  | [] => []
  | f :: fs => fileEntries f ++ allEntries fs

/-- Append a key to an accumulator unless already present: one step of
first-seen key collection. -/
def addFirstSeen (acc : List String) (k : String) : List String :=
  if k ∈ acc then acc else acc ++ [k]

/-- The keys of a key sequence in the order each is first seen. -/
def firstSeenKeys (ks : List String) : List String :=
  ks.foldl addFirstSeen []

/-- A simple total locale comparator (compare by length), used to
instantiate the comparator parameter on concrete runs. -/
def lcLen (a b : String) : Int := (a.length : Int) - (b.length : Int)

/-- A stand-in hash function used to instantiate the `md5` parameter on
concrete runs. -/
def md5Stub (s : String) : String := "h" ++ s

/-- The own property names of `Object.prototype`.  Reading `allItems[k]` on
a plain object for a never-inserted key `k` in this list yields the
inherited member — a function, or for `__proto__` the prototype object —
which is truthy; for any other never-inserted key it yields `undefined`. -/
def objectProtoProps : List String :=
  ["constructor", "hasOwnProperty", "isPrototypeOf", "propertyIsEnumerable",
   "toLocaleString", "toString", "valueOf", "__proto__",
   "__defineGetter__", "__defineSetter__", "__lookupGetter__",
   "__lookupSetter__"]

/-- The numeric value of an all-digit key, read off its characters. -/
def digitsToNat (cs : List Char) : Nat :=
  cs.foldl (fun acc c => acc * 10 + (c.toNat - 48)) 0

/-- JavaScript array-index keys: the canonical decimal numeral of an integer
in `[0, 2^32 - 2]` (non-empty, all digits, no leading zero except `"0"`
itself).  Object key enumeration lists these first, in ascending numeric
order, before the other string keys in insertion order. -/
def isArrayIndex (s : String) : Bool :=
  match s.data with
  | [] => false
  | c :: cs =>
      (c :: cs).all (fun d => d.isDigit) &&
        (cs.isEmpty || !(c == '0')) &&
        digitsToNat (c :: cs) < 4294967295

/-- The numeric value of an array-index key, used for their ordering. -/
def arrayIndexVal (s : String) : Nat := digitsToNat s.data

/-- `Object.values(allItems)` with full JavaScript enumeration order: own
array-index keys first, in ascending numeric order, then the remaining own
string keys in insertion order. -/
def jsObjectValues (st : MergeState) : List TranslationItem :=
  ((st.filter fun kv => isArrayIndex kv.1).insertionSort
      fun a b => arrayIndexVal a.1 ≤ arrayIndexVal b.1).map Prod.snd ++
    (st.filter fun kv => !isArrayIndex kv.1).map Prod.snd

/-- The body of the inner loop of the main variant with full JavaScript
property-lookup semantics for `if (allItems[key])`: a never-inserted key
naming an inherited `Object.prototype` member reads as a truthy value whose
`.value` property is `undefined` (interpolated into the message as
`"undefined"`), which differs from the entry's string value, so such an
entry always takes the conflict branch and is never stored.  For stored
keys the behaviour is exactly that of `processItem`. -/
def jsProcessItem (opts : Options) (path : String) (st : MergeState)
    (item : TranslationItem) : Except String (MergeState × List Diag) :=
  match getItem st item.key with
  | some existing =>
      if existing.value = item.value then
        if opts.mergeContext && !ctxTruthy existing.context && ctxTruthy item.context then
          .ok (setContext st item.key item.context,
            [.pulledContext item.key (item.context.getD "")])
        else
          .ok (st, [.skipDuplicate item.key])
      else
        if !opts.ignoreErrors then
          .error (conflictMsg item.key existing.value item.value path)
        else
          .ok (st, [.conflictWarning item.key existing.value item.value path])
  | none =>
      if item.key ∈ objectProtoProps then
        if !opts.ignoreErrors then
          .error (conflictMsg item.key "undefined" item.value path)
        else
          .ok (st, [.conflictWarning item.key "undefined" item.value path])
      else .ok (insertItem st item.key item, [])

/-- The inner entry loop with JavaScript property-lookup semantics. -/
def jsProcessItems (opts : Options) (path : String) (st : MergeState) :
    List TranslationItem → Except String (MergeState × List Diag)
  | [] => .ok (st, [])
  | item :: rest =>
      match jsProcessItem opts path st item with
      | .error e => .error e
      | .ok (st', log) =>
          match jsProcessItems opts path st' rest with
          | .error e => .error e
          | .ok (st'', log') => .ok (st'', log ++ log')

/-- Processing of one input file with JavaScript property-lookup
semantics. -/
def jsProcessFile (opts : Options) (st : MergeState) (file : InputFile) :
    Except String (MergeState × List Diag) :=
  match loadAndParse file opts.ignoreErrors with
  | .error e => .error e
  | .ok (parsed, log) =>
      match itemsOf parsed with
      | .error e => .error e
      | .ok items =>
          match jsProcessItems opts file.path st items with
          | .error e => .error e
          | .ok (st', log') => .ok (st', log ++ log')

/-- The outer file loop with JavaScript property-lookup semantics. -/
def jsRunFiles (opts : Options) (st : MergeState) :
    List InputFile → Except String (MergeState × List Diag)
  | [] => .ok (st, [])
  | f :: fs =>
      match jsProcessFile opts st f with
      | .error e => .error e
      | .ok (st', log) =>
          match jsRunFiles opts st' fs with
          | .error e => .error e
          | .ok (st'', log') => .ok (st'', log ++ log')

/-- `main` of the main variant with full JavaScript object semantics:
prototype-chain lookups in the merge loop and JavaScript enumeration order
in `Object.values`. -/
def jsMain (lc : String → String → Int) (opts : Options)
    (files : List InputFile) : Except String (TranslationObject × List Diag) :=
  match jsRunFiles opts [] files with
  | .error e => .error e
  | .ok (st, log) =>
      let translations :=
        if opts.sort then sortTranslations lc (jsObjectValues st)
        else jsObjectValues st
      .ok ({ language := "EN", translations := translations }, log)

/-- Well-formedness of the accumulated object: each entry is stored under
its own `key` field (the loop always writes `allItems[item.key] = item`). -/
def StateWF (st : MergeState) : Prop := ∀ p ∈ st, p.2.key = p.1

theorem getItem_eq_none_iff (st : MergeState) (k : String) :
    getItem st k = none ↔ k ∉ stateKeys st := by
  induction st with
  | nil => simp [getItem, stateKeys]
  | cons p rest ih =>
      obtain ⟨k0, it0⟩ := p
      by_cases h : k0 = k
      · subst h
        simp [getItem, stateKeys]
      · have h' : ¬k = k0 := fun hh => h hh.symm
        simp [getItem, stateKeys, h, h', ih]

theorem getItem_isSome_iff (st : MergeState) (k : String) :
    (getItem st k).isSome = true ↔ k ∈ stateKeys st := by
  rw [Option.isSome_iff_ne_none]
  constructor
  · intro h
    by_contra hk
    exact h ((getItem_eq_none_iff st k).mpr hk)
  · intro h hn
    exact (getItem_eq_none_iff st k).mp hn h

theorem stateKeys_insertItem (st : MergeState) (k : String) (it : TranslationItem) :
    stateKeys (insertItem st k it) = stateKeys st ++ [k] := by
  simp [stateKeys, insertItem]

theorem stateKeys_setContext (st : MergeState) (k : String) (c : Option String) :
    stateKeys (setContext st k c) = stateKeys st := by
  induction st with
  | nil => rfl
  | cons p rest ih =>
      obtain ⟨k0, it0⟩ := p
      by_cases h : k0 = k <;> simp [stateKeys, setContext, h] <;>
        simpa [stateKeys] using ih

theorem getItem_setContext_eq (st : MergeState) (k : String) (c : Option String)
    (k' : String) :
    getItem (setContext st k c) k' =
      (getItem st k').map fun it => if k' = k then { it with context := c } else it := by
  induction st with
  | nil => simp [getItem, setContext]
  | cons p rest ih =>
      obtain ⟨k0, it0⟩ := p
      by_cases h : k0 = k'
      · subst h
        by_cases hk : k0 = k <;> simp [getItem, setContext, hk, ih]
      · by_cases hk : k0 = k
        · have hkk' : ¬k = k' := hk ▸ h
          simp [getItem, setContext, hk, h, hkk', ih]
        · simp [getItem, setContext, hk, h, ih]

theorem getItem_insertItem (st : MergeState) (k : String) (it : TranslationItem)
    (k' : String) :
    getItem (insertItem st k it) k' =
      match getItem st k' with
      | some x => some x
      | none => if k = k' then some it else none := by
  induction st with
  | nil => simp [getItem, insertItem]
  | cons p rest ih =>
      obtain ⟨k0, it0⟩ := p
      by_cases h : k0 = k'
      · simp [getItem, insertItem, h]
      · rw [insertItem, List.cons_append, getItem, if_neg h,
          show getItem ((k0, it0) :: rest) k' = getItem rest k' from by
            rw [getItem, if_neg h]]
        simpa [insertItem] using ih

theorem processItem_not_seen (opts : Options) (path : String) (st : MergeState)
    (item : TranslationItem) (h : getItem st item.key = none) :
    processItem opts path st item = .ok (insertItem st item.key item, []) := by
  simp [processItem, h]

theorem processItem_pull (opts : Options) (path : String) (st : MergeState)
    (item existing : TranslationItem) (h : getItem st item.key = some existing)
    (hv : existing.value = item.value)
    (hc : (opts.mergeContext && !ctxTruthy existing.context && ctxTruthy item.context)
      = true) :
    processItem opts path st item =
      .ok (setContext st item.key item.context,
        [.pulledContext item.key (item.context.getD "")]) := by
  simp [processItem, h, hv, hc]

theorem processItem_skip (opts : Options) (path : String) (st : MergeState)
    (item existing : TranslationItem) (h : getItem st item.key = some existing)
    (hv : existing.value = item.value)
    (hc : (opts.mergeContext && !ctxTruthy existing.context && ctxTruthy item.context)
      = false) :
    processItem opts path st item = .ok (st, [.skipDuplicate item.key]) := by
  simp [processItem, h, hv, hc]

theorem processItem_conflict_strict (opts : Options) (path : String) (st : MergeState)
    (item existing : TranslationItem) (h : getItem st item.key = some existing)
    (hv : existing.value ≠ item.value) (hi : opts.ignoreErrors = false) :
    processItem opts path st item =
      .error (conflictMsg item.key existing.value item.value path) := by
  simp [processItem, h, hv, hi]

theorem processItem_conflict_lenient (opts : Options) (path : String) (st : MergeState)
    (item existing : TranslationItem) (h : getItem st item.key = some existing)
    (hv : existing.value ≠ item.value) (hi : opts.ignoreErrors = true) :
    processItem opts path st item =
      .ok (st, [.conflictWarning item.key existing.value item.value path]) := by
  simp [processItem, h, hv, hi]

theorem processItem_ok (opts : Options) (path : String) (st : MergeState)
    (item : TranslationItem) (st' : MergeState) (log : List Diag)
    (h : processItem opts path st item = .ok (st', log)) :
    (getItem st item.key = none ∧ st' = insertItem st item.key item) ∨
      ((getItem st item.key).isSome = true ∧
        (st' = st ∨ st' = setContext st item.key item.context)) := by
  cases hg : getItem st item.key with
  | none =>
      rw [processItem_not_seen _ _ _ _ hg] at h
      simp only [Except.ok.injEq, Prod.mk.injEq] at h
      exact Or.inl ⟨rfl, h.1.symm⟩
  | some existing =>
      refine Or.inr ⟨by simp [hg], ?_⟩
      by_cases hv : existing.value = item.value
      · cases hc : (opts.mergeContext && !ctxTruthy existing.context
          && ctxTruthy item.context) with
        | true =>
            rw [processItem_pull _ _ _ _ _ hg hv hc] at h
            simp only [Except.ok.injEq, Prod.mk.injEq] at h
            exact Or.inr h.1.symm
        | false =>
            rw [processItem_skip _ _ _ _ _ hg hv hc] at h
            simp only [Except.ok.injEq, Prod.mk.injEq] at h
            exact Or.inl h.1.symm
      · cases hi : opts.ignoreErrors with
        | true =>
            rw [processItem_conflict_lenient _ _ _ _ _ hg hv hi] at h
            simp only [Except.ok.injEq, Prod.mk.injEq] at h
            exact Or.inl h.1.symm
        | false =>
            rw [processItem_conflict_strict _ _ _ _ _ hg hv hi] at h
            exact absurd h (by simp)

theorem stateKeys_processItem_ok (opts : Options) (path : String) (st : MergeState)
    (item : TranslationItem) (st' : MergeState) (log : List Diag)
    (h : processItem opts path st item = .ok (st', log)) :
    stateKeys st' = addFirstSeen (stateKeys st) item.key := by
  rcases processItem_ok _ _ _ _ _ _ h with ⟨hg, rfl⟩ | ⟨hg, hst⟩
  · have hmem : item.key ∉ stateKeys st := (getItem_eq_none_iff st item.key).mp hg
    rw [stateKeys_insertItem, addFirstSeen, if_neg hmem]
  · have hmem : item.key ∈ stateKeys st := (getItem_isSome_iff st item.key).mp hg
    rcases hst with rfl | rfl
    · rw [addFirstSeen, if_pos hmem]
    · rw [stateKeys_setContext, addFirstSeen, if_pos hmem]

theorem getItem_processItem_ok (opts : Options) (path : String) (st : MergeState)
    (item : TranslationItem) (st' : MergeState) (log : List Diag)
    (h : processItem opts path st item = .ok (st', log)) (k : String)
    (old : TranslationItem) (hk : getItem st k = some old) :
    ∃ new, getItem st' k = some new ∧ new.key = old.key ∧ new.value = old.value := by
  rcases processItem_ok _ _ _ _ _ _ h with ⟨hg, rfl⟩ | ⟨hg, (rfl | rfl)⟩
  · exact ⟨old, by rw [getItem_insertItem]; simp [hk], rfl, rfl⟩
  · exact ⟨old, hk, rfl, rfl⟩
  · refine ⟨_, by rw [getItem_setContext_eq, hk]; rfl, ?_, ?_⟩ <;>
      by_cases hkk : k = item.key <;> simp [hkk]

theorem stateWF_insertItem (st : MergeState) (item : TranslationItem)
    (h : StateWF st) : StateWF (insertItem st item.key item) := by
  intro p hp
  rcases List.mem_append.mp hp with hp | hp
  · exact h p hp
  · simp only [List.mem_singleton] at hp
    subst hp
    rfl

theorem stateWF_setContext (st : MergeState) (k : String) (c : Option String)
    (h : StateWF st) : StateWF (setContext st k c) := by
  induction st with
  | nil => exact h
  | cons p rest ih =>
      obtain ⟨k0, it0⟩ := p
      have hrest : StateWF rest := fun q hq => h q (List.mem_cons_of_mem _ hq)
      have hih := ih hrest
      intro q hq
      by_cases hk : k0 = k
      · simp only [setContext, if_pos hk] at hq
        rcases List.mem_cons.mp hq with rfl | hq
        · exact h (k0, it0) (List.mem_cons_self _ _)

        · exact hih q hq
      · simp only [setContext, if_neg hk] at hq
        rcases List.mem_cons.mp hq with rfl | hq
        · exact h (k0, it0) (List.mem_cons_self _ _)
        · exact hih q hq

theorem stateWF_processItem_ok (opts : Options) (path : String) (st : MergeState)
    (item : TranslationItem) (st' : MergeState) (log : List Diag)
    (h : processItem opts path st item = .ok (st', log)) (hwf : StateWF st) :
    StateWF st' := by
  rcases processItem_ok _ _ _ _ _ _ h with ⟨_, rfl⟩ | ⟨_, (rfl | rfl)⟩
  · exact stateWF_insertItem st item hwf
  · exact hwf
  · exact stateWF_setContext st item.key item.context hwf

theorem objectValues_map_key (st : MergeState) (h : StateWF st) :
    (objectValues st).map (fun it => it.key) = stateKeys st := by
  induction st with
  | nil => rfl
  | cons p rest ih =>
      obtain ⟨k0, it0⟩ := p
      have hrest : StateWF rest := fun q hq => h q (List.mem_cons_of_mem _ hq)
      have hk : it0.key = k0 := h (k0, it0) (List.mem_cons_self _ _)
      have hih := ih hrest
      simp only [objectValues, stateKeys, List.map_cons] at hih ⊢
      rw [hk]
      exact congrArg (k0 :: ·) hih

theorem mem_foldl_addFirstSeen (ks acc : List String) (k : String) :
    k ∈ ks.foldl addFirstSeen acc ↔ k ∈ acc ∨ k ∈ ks := by
  induction ks generalizing acc with
  | nil => simp
  | cons k0 rest ih =>
      simp only [List.foldl_cons, ih, List.mem_cons]
      unfold addFirstSeen
      by_cases h : k0 ∈ acc
      · rw [if_pos h]
        constructor
        · rintro (h1 | h1)
          · exact Or.inl h1
          · exact Or.inr (Or.inr h1)
        · rintro (h1 | rfl | h1)
          · exact Or.inl h1
          · exact Or.inl h
          · exact Or.inr h1
      · rw [if_neg h]
        simp only [List.mem_append, List.mem_singleton]
        tauto

theorem nodup_foldl_addFirstSeen (ks acc : List String) (h : acc.Nodup) :
    (ks.foldl addFirstSeen acc).Nodup := by
  induction ks generalizing acc with
  | nil => exact h
  | cons k0 rest ih =>
      simp only [List.foldl_cons]
      apply ih
      unfold addFirstSeen
      by_cases hk : k0 ∈ acc
      · rwa [if_pos hk]
      · rw [if_neg hk]
        simp [List.nodup_append, h, hk]

theorem processItems_cons_ok (opts : Options) (path : String) (st : MergeState)
    (item : TranslationItem) (rest : List TranslationItem) (st' : MergeState)
    (log : List Diag) (h : processItems opts path st (item :: rest) = .ok (st', log)) :
    ∃ st1 log1 log2, processItem opts path st item = .ok (st1, log1) ∧
      processItems opts path st1 rest = .ok (st', log2) ∧ log = log1 ++ log2 := by
  cases hp : processItem opts path st item with
  | error e =>
      simp only [processItems, hp] at h
      exact absurd h (by simp)
  | ok p =>
      obtain ⟨st1, log1⟩ := p
      cases hr : processItems opts path st1 rest with
      | error e =>
          simp only [processItems, hp, hr] at h
          exact absurd h (by simp)
      | ok q =>
          obtain ⟨st2, log2⟩ := q
          simp only [processItems, hp, hr, Except.ok.injEq, Prod.mk.injEq] at h
          exact ⟨st1, log1, log2, rfl, by rw [hr, h.1], h.2.symm⟩

theorem processItems_nil_ok (opts : Options) (path : String) (st st' : MergeState)
    (log : List Diag) (h : processItems opts path st [] = .ok (st', log)) :
    st' = st ∧ log = [] := by
  simp only [processItems, Except.ok.injEq, Prod.mk.injEq] at h
  exact ⟨h.1.symm, h.2.symm⟩

theorem stateKeys_processItems_ok (opts : Options) (path : String)
    (items : List TranslationItem) (st st' : MergeState) (log : List Diag)
    (h : processItems opts path st items = .ok (st', log)) :
    stateKeys st' = (items.map fun it => it.key).foldl addFirstSeen (stateKeys st) := by
  induction items generalizing st log with
  | nil =>
      obtain ⟨rfl, -⟩ := processItems_nil_ok _ _ _ _ _ h
      rfl
  | cons item rest ih =>
      obtain ⟨st1, log1, log2, hp, hr, -⟩ := processItems_cons_ok _ _ _ _ _ _ _ h
      rw [List.map_cons, List.foldl_cons, ← stateKeys_processItem_ok _ _ _ _ _ _ hp]
      exact ih _ _ hr

theorem getItem_processItems_ok (opts : Options) (path : String)
    (items : List TranslationItem) (st st' : MergeState) (log : List Diag)
    (h : processItems opts path st items = .ok (st', log)) :
    ∀ k old, getItem st k = some old →
      ∃ new, getItem st' k = some new ∧ new.key = old.key ∧ new.value = old.value := by
  induction items generalizing st log with
  | nil =>
      obtain ⟨rfl, -⟩ := processItems_nil_ok _ _ _ _ _ h
      exact fun k old hk => ⟨old, hk, rfl, rfl⟩
  | cons item rest ih =>
      obtain ⟨st1, log1, log2, hp, hr, -⟩ := processItems_cons_ok _ _ _ _ _ _ _ h
      intro k old hk
      obtain ⟨mid, hmid, hmk, hmv⟩ := getItem_processItem_ok _ _ _ _ _ _ hp k old hk
      obtain ⟨new, hnew, hnk, hnv⟩ := ih _ _ hr k mid hmid
      exact ⟨new, hnew, hnk.trans hmk, hnv.trans hmv⟩

theorem stateWF_processItems_ok (opts : Options) (path : String)
    (items : List TranslationItem) (st st' : MergeState) (log : List Diag)
    (h : processItems opts path st items = .ok (st', log)) (hwf : StateWF st) :
    StateWF st' := by
  induction items generalizing st log with
  | nil =>
      obtain ⟨rfl, -⟩ := processItems_nil_ok _ _ _ _ _ h
      exact hwf
  | cons item rest ih =>
      obtain ⟨st1, log1, log2, hp, hr, -⟩ := processItems_cons_ok _ _ _ _ _ _ _ h
      exact ih _ _ hr (stateWF_processItem_ok _ _ _ _ _ _ hp hwf)

theorem processFile_loadError_strict (opts : Options) (st : MergeState)
    (f : InputFile) (msg : String) (hd : f.data = .error msg)
    (hi : opts.ignoreErrors = false) :
    processFile opts st f = .error (loadErrorMsg f.path msg) := by
  simp [processFile, loadAndParse, hd, hi]

theorem processFile_loadError_lenient (opts : Options) (st : MergeState)
    (f : InputFile) (msg : String) (hd : f.data = .error msg)
    (hi : opts.ignoreErrors = true) :
    processFile opts st f = .ok (st, [.loadWarning f.path msg]) := by
  simp [processFile, loadAndParse, hd, hi, itemsOf, processItems]

theorem processFile_absent (opts : Options) (st : MergeState) (f : InputFile)
    (hd : f.data = .ok .absent) : processFile opts st f = .ok (st, []) := by
  simp [processFile, loadAndParse, hd, itemsOf, processItems]

theorem processFile_nonIterable (opts : Options) (st : MergeState) (f : InputFile)
    (hd : f.data = .ok .nonIterable) :
    processFile opts st f = .error "TypeError: items is not iterable" := by
  simp [processFile, loadAndParse, hd, itemsOf]

theorem processFile_arr (opts : Options) (st : MergeState) (f : InputFile)
    (items : List TranslationItem) (hd : f.data = .ok (.arr items)) :
    processFile opts st f = processItems opts f.path st items := by
  simp only [processFile, loadAndParse, hd, itemsOf]
  cases hr : processItems opts f.path st items with
  | error e => rfl
  | ok p => obtain ⟨st1, log1⟩ := p; simp

theorem fileEntries_of_not_arr (f : InputFile)
    (h : ∀ items, f.data ≠ .ok (.arr items)) : fileEntries f = [] := by
  unfold fileEntries
  cases hd : f.data with
  | error msg => rfl
  | ok t =>
      cases t with
      | absent => rfl
      | nonIterable => rfl
      | arr items => exact absurd hd (h items)

theorem processFile_ok (opts : Options) (st : MergeState) (f : InputFile)
    (st' : MergeState) (log : List Diag)
    (h : processFile opts st f = .ok (st', log)) :
    ∃ log0 log1, processItems opts f.path st (fileEntries f) = .ok (st', log1) ∧
      log = log0 ++ log1 := by
  cases hd : f.data with
  | error msg =>
      cases hi : opts.ignoreErrors with
      | false =>
          rw [processFile_loadError_strict _ _ _ _ hd hi] at h
          exact absurd h (by simp)
      | true =>
          rw [processFile_loadError_lenient _ _ _ _ hd hi] at h
          simp only [Except.ok.injEq, Prod.mk.injEq] at h
          refine ⟨[.loadWarning f.path msg], [], ?_, by simp [h.2.symm]⟩
          rw [show fileEntries f = [] from by simp [fileEntries, hd], processItems, h.1]
  | ok t =>
      cases t with
      | absent =>
          rw [processFile_absent _ _ _ hd] at h
          simp only [Except.ok.injEq, Prod.mk.injEq] at h
          refine ⟨[], [], ?_, by simp [h.2.symm]⟩
          rw [show fileEntries f = [] from by simp [fileEntries, hd], processItems, h.1]
      | nonIterable =>
          rw [processFile_nonIterable _ _ _ hd] at h
          exact absurd h (by simp)
      | arr items =>
          rw [processFile_arr _ _ _ _ hd] at h
          refine ⟨[], log, ?_, by simp⟩
          rw [show fileEntries f = items from by simp [fileEntries, hd]]
          exact h

theorem runFiles_cons_ok (opts : Options) (st : MergeState) (f : InputFile)
    (fs : List InputFile) (st' : MergeState) (log : List Diag)
    (h : runFiles opts st (f :: fs) = .ok (st', log)) :
    ∃ st1 log1 log2, processFile opts st f = .ok (st1, log1) ∧
      runFiles opts st1 fs = .ok (st', log2) ∧ log = log1 ++ log2 := by
  cases hp : processFile opts st f with
  | error e =>
      simp only [runFiles, hp] at h
      exact absurd h (by simp)
  | ok p =>
      obtain ⟨st1, log1⟩ := p
      cases hr : runFiles opts st1 fs with
      | error e =>
          simp only [runFiles, hp, hr] at h
          exact absurd h (by simp)
      | ok q =>
          obtain ⟨st2, log2⟩ := q
          simp only [runFiles, hp, hr, Except.ok.injEq, Prod.mk.injEq] at h
          exact ⟨st1, log1, log2, rfl, by rw [hr, h.1], h.2.symm⟩

theorem runFiles_nil_ok (opts : Options) (st st' : MergeState) (log : List Diag)
    (h : runFiles opts st [] = .ok (st', log)) : st' = st ∧ log = [] := by
  simp only [runFiles, Except.ok.injEq, Prod.mk.injEq] at h
  exact ⟨h.1.symm, h.2.symm⟩

theorem stateKeys_runFiles_ok (opts : Options) (files : List InputFile)
    (st st' : MergeState) (log : List Diag)
    (h : runFiles opts st files = .ok (st', log)) :
    stateKeys st' =
      ((allEntries files).map fun it => it.key).foldl addFirstSeen (stateKeys st) := by
  induction files generalizing st log with
  | nil =>
      obtain ⟨rfl, -⟩ := runFiles_nil_ok _ _ _ _ h
      rfl
  | cons f fs ih =>
      obtain ⟨st1, log1, log2, hp, hr, -⟩ := runFiles_cons_ok _ _ _ _ _ _ h
      obtain ⟨log0, logi, hitems, -⟩ := processFile_ok _ _ _ _ _ hp
      rw [allEntries, List.map_append, List.foldl_append,
        ← stateKeys_processItems_ok _ _ _ _ _ _ hitems]
      exact ih _ _ hr

theorem getItem_runFiles_ok (opts : Options) (files : List InputFile)
    (st st' : MergeState) (log : List Diag)
    (h : runFiles opts st files = .ok (st', log)) :
    ∀ k old, getItem st k = some old →
      ∃ new, getItem st' k = some new ∧ new.key = old.key ∧ new.value = old.value := by
  induction files generalizing st log with
  | nil =>
      obtain ⟨rfl, -⟩ := runFiles_nil_ok _ _ _ _ h
      exact fun k old hk => ⟨old, hk, rfl, rfl⟩
  | cons f fs ih =>
      obtain ⟨st1, log1, log2, hp, hr, -⟩ := runFiles_cons_ok _ _ _ _ _ _ h
      obtain ⟨log0, logi, hitems, -⟩ := processFile_ok _ _ _ _ _ hp
      intro k old hk
      obtain ⟨mid, hmid, hmk, hmv⟩ := getItem_processItems_ok _ _ _ _ _ _ hitems k old hk
      obtain ⟨new, hnew, hnk, hnv⟩ := ih _ _ hr k mid hmid
      exact ⟨new, hnew, hnk.trans hmk, hnv.trans hmv⟩

theorem stateWF_runFiles_ok (opts : Options) (files : List InputFile)
    (st st' : MergeState) (log : List Diag)
    (h : runFiles opts st files = .ok (st', log)) (hwf : StateWF st) :
    StateWF st' := by
  induction files generalizing st log with
  | nil =>
      obtain ⟨rfl, -⟩ := runFiles_nil_ok _ _ _ _ h
      exact hwf
  | cons f fs ih =>
      obtain ⟨st1, log1, log2, hp, hr, -⟩ := runFiles_cons_ok _ _ _ _ _ _ h
      obtain ⟨log0, logi, hitems, -⟩ := processFile_ok _ _ _ _ _ hp
      exact ih _ _ hr (stateWF_processItems_ok _ _ _ _ _ _ hitems hwf)

theorem runFiles_append (opts : Options) (st : MergeState)
    (as bs : List InputFile) :
    runFiles opts st (as ++ bs) =
      match runFiles opts st as with
      | .error e => .error e
      | .ok (s1, l1) =>
          match runFiles opts s1 bs with
          | .error e => .error e
          | .ok (s2, l2) => .ok (s2, l1 ++ l2) := by
  induction as generalizing st with
  | nil =>
      cases hr : runFiles opts st bs with
      | error e => simp [runFiles, hr]
      | ok p => obtain ⟨s2, l2⟩ := p; simp [runFiles, hr]
  | cons f fs ih =>
      cases hp : processFile opts st f with
      | error e => simp [runFiles, hp]
      | ok p =>
          obtain ⟨s1, l1⟩ := p
          have hih := ih s1
          cases h1 : runFiles opts s1 fs with
          | error e =>
              simp only [h1] at hih
              simp [runFiles, hp, hih, h1]
          | ok q =>
              obtain ⟨s2, l2⟩ := q
              simp only [h1] at hih
              cases h2 : runFiles opts s2 bs with
              | error e =>
                  simp only [h2] at hih
                  simp [runFiles, hp, hih, h1, h2]
              | ok r =>
                  obtain ⟨s3, l3⟩ := r
                  simp only [h2] at hih
                  simp [runFiles, hp, hih, h1, h2, List.append_assoc]

theorem processItem_log_no_hash (opts : Options) (path : String) (st : MergeState)
    (item : TranslationItem) (st' : MergeState) (log : List Diag)
    (h : processItem opts path st item = .ok (st', log)) (v e a : String) :
    Diag.hashMismatch v e a ∉ log := by
  cases hg : getItem st item.key with
  | none =>
      rw [processItem_not_seen _ _ _ _ hg] at h
      simp only [Except.ok.injEq, Prod.mk.injEq] at h
      rw [← h.2]
      simp
  | some existing =>
      by_cases hv : existing.value = item.value
      · cases hc : (opts.mergeContext && !ctxTruthy existing.context
          && ctxTruthy item.context) with
        | true =>
            rw [processItem_pull _ _ _ _ _ hg hv hc] at h
            simp only [Except.ok.injEq, Prod.mk.injEq] at h
            rw [← h.2]
            simp
        | false =>
            rw [processItem_skip _ _ _ _ _ hg hv hc] at h
            simp only [Except.ok.injEq, Prod.mk.injEq] at h
            rw [← h.2]
            simp
      · cases hi : opts.ignoreErrors with
        | true =>
            rw [processItem_conflict_lenient _ _ _ _ _ hg hv hi] at h
            simp only [Except.ok.injEq, Prod.mk.injEq] at h
            rw [← h.2]
            simp
        | false =>
            rw [processItem_conflict_strict _ _ _ _ _ hg hv hi] at h
            exact absurd h (by simp)

theorem processItems_log_no_hash (opts : Options) (path : String)
    (items : List TranslationItem) (st st' : MergeState) (log : List Diag)
    (h : processItems opts path st items = .ok (st', log)) (v e a : String) :
    Diag.hashMismatch v e a ∉ log := by
  induction items generalizing st log with
  | nil =>
      obtain ⟨-, rfl⟩ := processItems_nil_ok _ _ _ _ _ h
      simp
  | cons item rest ih =>
      obtain ⟨st1, log1, log2, hp, hr, rfl⟩ := processItems_cons_ok _ _ _ _ _ _ _ h
      simp only [List.mem_append]
      rintro (hm | hm)
      · exact processItem_log_no_hash _ _ _ _ _ _ hp v e a hm
      · exact ih _ _ hr hm

theorem processFile_log_no_hash (opts : Options) (st : MergeState) (f : InputFile)
    (st' : MergeState) (log : List Diag)
    (h : processFile opts st f = .ok (st', log)) (v e a : String) :
    Diag.hashMismatch v e a ∉ log := by
  cases hd : f.data with
  | error msg =>
      cases hi : opts.ignoreErrors with
      | false =>
          rw [processFile_loadError_strict _ _ _ _ hd hi] at h
          exact absurd h (by simp)
      | true =>
          rw [processFile_loadError_lenient _ _ _ _ hd hi] at h
          simp only [Except.ok.injEq, Prod.mk.injEq] at h
          rw [← h.2]
          simp
  | ok t =>
      cases t with
      | absent =>
          rw [processFile_absent _ _ _ hd] at h
          simp only [Except.ok.injEq, Prod.mk.injEq] at h
          rw [← h.2]
          simp
      | nonIterable =>
          rw [processFile_nonIterable _ _ _ hd] at h
          exact absurd h (by simp)
      | arr items =>
          rw [processFile_arr _ _ _ _ hd] at h
          exact processItems_log_no_hash _ _ _ _ _ _ h v e a

theorem runFiles_log_no_hash (opts : Options) (files : List InputFile)
    (st st' : MergeState) (log : List Diag)
    (h : runFiles opts st files = .ok (st', log)) (v e a : String) :
    Diag.hashMismatch v e a ∉ log := by
  induction files generalizing st log with
  | nil =>
      obtain ⟨-, rfl⟩ := runFiles_nil_ok _ _ _ _ h
      simp
  | cons f fs ih =>
      obtain ⟨st1, log1, log2, hp, hr, rfl⟩ := runFiles_cons_ok _ _ _ _ _ _ h
      simp only [List.mem_append]
      rintro (hm | hm)
      · exact processFile_log_no_hash _ _ _ _ _ hp v e a hm
      · exact ih _ _ hr hm

theorem stateKeys_append (a b : MergeState) :
    stateKeys (a ++ b) = stateKeys a ++ stateKeys b := by
  simp [stateKeys]

theorem stateKeys_pairs (items : List TranslationItem) :
    stateKeys (items.map fun it => (it.key, it)) = items.map fun it => it.key := by
  simp [stateKeys, List.map_map]

theorem objectValues_pairs (items : List TranslationItem) :
    objectValues (items.map fun it => (it.key, it)) = items := by
  induction items with
  | nil => rfl
  | cons it rest ih =>
      simp only [objectValues, List.map_cons] at ih ⊢
      rw [ih]

theorem objectValues_append (a b : MergeState) :
    objectValues (a ++ b) = objectValues a ++ objectValues b := by
  simp [objectValues]

theorem allEntries_length (files : List InputFile) :
    (allEntries files).length = (files.map fun f => (fileEntries f).length).sum := by
  induction files with
  | nil => rfl
  | cons f fs ih => simp [allEntries, ih]

theorem processItems_fresh (opts : Options) (path : String)
    (items : List TranslationItem) :
    ∀ st : MergeState, (∀ it ∈ items, it.key ∉ stateKeys st) →
      (items.map fun it => it.key).Nodup →
      processItems opts path st items =
        .ok (st ++ items.map fun it => (it.key, it), []) := by
  induction items with
  | nil =>
      intro st _ _
      simp [processItems]
  | cons item rest ih =>
      intro st hfresh hnd
      have hg : getItem st item.key = none :=
        (getItem_eq_none_iff _ _).mpr (hfresh item (List.mem_cons_self _ _))
      have hnd' : (rest.map fun it => it.key).Nodup := (List.nodup_cons.mp hnd).2
      have hkey : item.key ∉ rest.map fun it => it.key := (List.nodup_cons.mp hnd).1
      have hfresh' : ∀ it ∈ rest, it.key ∉ stateKeys (insertItem st item.key item) := by
        intro it hit
        rw [stateKeys_insertItem]
        simp only [List.mem_append, List.mem_singleton]
        rintro (hmem | heq)
        · exact hfresh it (List.mem_cons_of_mem _ hit) hmem
        · exact hkey (heq ▸ List.mem_map_of_mem (fun it => it.key) hit)
      simp only [processItems, processItem_not_seen _ _ _ _ hg,
        ih (insertItem st item.key item) hfresh' hnd', List.map_cons]
      simp [insertItem]

theorem runFiles_fresh (opts : Options) (files : List InputFile) :
    ∀ st : MergeState, (∀ f ∈ files, ∃ items, f.data = .ok (.arr items)) →
      (∀ it ∈ allEntries files, it.key ∉ stateKeys st) →
      ((allEntries files).map fun it => it.key).Nodup →
      runFiles opts st files =
        .ok (st ++ (allEntries files).map fun it => (it.key, it), []) := by
  induction files with
  | nil =>
      intro st _ _ _
      simp [runFiles, allEntries]
  | cons f fs ih =>
      intro st hdocs hfresh hnd
      obtain ⟨items, hd⟩ := hdocs f (List.mem_cons_self _ _)
      have hfe : fileEntries f = items := by simp [fileEntries, hd]
      have hE : allEntries (f :: fs) = items ++ allEntries fs := by
        rw [allEntries, hfe]
      rw [hE] at hfresh hnd
      simp only [List.map_append, List.nodup_append] at hnd
      have hpf : processFile opts st f = .ok (st ++ items.map fun it => (it.key, it), []) := by
        rw [processFile_arr _ _ _ _ hd]
        exact processItems_fresh opts f.path items st
          (fun it hit => hfresh it (List.mem_append_left _ hit)) hnd.1
      have hfresh2 : ∀ it ∈ allEntries fs,
          it.key ∉ stateKeys (st ++ items.map fun it => (it.key, it)) := by
        intro it hit
        rw [stateKeys_append, stateKeys_pairs]
        simp only [List.mem_append]
        rintro (hmem | hmem)
        · exact hfresh it (List.mem_append_right _ hit) hmem
        · exact hnd.2.2 hmem (List.mem_map_of_mem (fun it => it.key) hit)
      have hrun := ih (st ++ items.map fun it => (it.key, it)) (fun g hg => hdocs g
        (List.mem_cons_of_mem _ hg)) hfresh2 hnd.2.1
      simp only [runFiles, hpf, hrun, hE, List.map_append]
      simp

theorem main_ok (lc : String → String → Int) (opts : Options)
    (files : List InputFile) (doc : TranslationObject) (log : List Diag)
    (h : main lc opts files = .ok (doc, log)) :
    ∃ st, runFiles opts [] files = .ok (st, log) ∧ doc.language = "EN" ∧
      doc.translations =
        (if opts.sort then sortTranslations lc (objectValues st)
         else objectValues st) := by
  unfold main at h
  cases hr : runFiles opts [] files with
  | error e =>
      rw [hr] at h
      exact absurd h (by simp)
  | ok p =>
      obtain ⟨st, log1⟩ := p
      rw [hr] at h
      simp only [Except.ok.injEq, Prod.mk.injEq] at h
      obtain ⟨hdoc, hlog⟩ := h
      subst hlog
      exact ⟨st, rfl, by rw [← hdoc], by rw [← hdoc]⟩

theorem runFiles_cons_error (opts : Options) (st : MergeState) (f : InputFile)
    (fs : List InputFile) (e : String) (h : processFile opts st f = .error e) :
    runFiles opts st (f :: fs) = .error e := by
  simp only [runFiles, h]

theorem runFiles_cons_absent (opts : Options) (st : MergeState) (f : InputFile)
    (fs : List InputFile) (h : f.data = .ok .absent) :
    runFiles opts st (f :: fs) = runFiles opts st fs := by
  simp only [runFiles, processFile_absent opts st f h]
  cases h2 : runFiles opts st fs with
  | error e => rfl
  | ok q =>
      obtain ⟨s2, l2⟩ := q
      simp

theorem runFiles_cons_loadWarning (opts : Options) (st : MergeState)
    (f : InputFile) (fs : List InputFile) (msg : String)
    (hd : f.data = .error msg) (hi : opts.ignoreErrors = true) :
    runFiles opts st (f :: fs) =
      (runFiles opts st fs).map fun r => (r.1, Diag.loadWarning f.path msg :: r.2) := by
  simp only [runFiles, processFile_loadError_lenient opts st f msg hd hi]
  cases h2 : runFiles opts st fs with
  | error e => rfl
  | ok q =>
      obtain ⟨s2, l2⟩ := q
      simp [Except.map]

/-- C1 counterexample: in the early variant (`src/src/index.ts`) there is no
`ignoreErrors` option (so it is never set), yet a run whose two files bind
the same key `"k"` to the different values `"v1"` and `"v2"` does not abort:
it completes normally, keeps the first-seen value, and the only diagnostic
is a fixed warning string that names neither the key, nor the values, nor
the file. -/
theorem C1_counterexample :
    mainLegacy [⟨"a.json", .ok (.arr [⟨"k", "v1", none⟩])⟩,
        ⟨"b.json", .ok (.arr [⟨"k", "v2", none⟩])⟩] =
      .ok ({ language := "EN", translations := [⟨"k", "v1", none⟩] },
        [.legacyConflictWarning]) ∧
    Diag.legacyConflictWarning.render =
      "Warning: Found duplicate keys with different values:\n  " := by
  exact ⟨by decide, rfl⟩

/-- C1 (amended): in the two variants that support the `ignoreErrors` option,
when an entry's key was already seen with a different value: strict mode
(`ignoreErrors` not set) aborts, throwing an error whose message names the
key, both conflicting values, and the file where the second value was found,
and no later entry of that file is processed; lenient mode keeps the
first-seen value (the state is unchanged, so the new value is discarded) and
emits a warning diagnostic carrying the same details.  In the early variant
(`src/src/index.ts`), which has no `ignoreErrors` option, such a conflict
never aborts: the first-seen value is kept and only a fixed warning without
any details is printed. -/
theorem C1_amended_conflict (opts : Options) (path : String) (st : MergeState)
    (item existing : TranslationItem)
    (hseen : getItem st item.key = some existing)
    (hne : existing.value ≠ item.value) :
    (opts.ignoreErrors = false →
      processItem opts path st item =
        .error (conflictMsg item.key existing.value item.value path) ∧
      (∀ rest, processItems opts path st (item :: rest) =
        .error (conflictMsg item.key existing.value item.value path)) ∧
      (∃ a b, conflictMsg item.key existing.value item.value path =
        a ++ item.key ++ b) ∧
      (∃ a b, conflictMsg item.key existing.value item.value path =
        a ++ existing.value ++ b) ∧
      (∃ a b, conflictMsg item.key existing.value item.value path =
        a ++ item.value ++ b) ∧
      (∃ a b, conflictMsg item.key existing.value item.value path =
        a ++ path ++ b)) ∧
    (opts.ignoreErrors = true →
      processItem opts path st item =
        .ok (st, [.conflictWarning item.key existing.value item.value path]) ∧
      (Diag.conflictWarning item.key existing.value item.value path).render =
        "Warning: " ++ conflictMsg item.key existing.value item.value path) ∧
    processItemLegacy st item = (st, [.legacyConflictWarning]) := by
  refine ⟨?_, ?_, ?_⟩
  · intro hi
    have he := processItem_conflict_strict opts path st item existing hseen hne hi
    refine ⟨he, ?_, ?_, ?_, ?_, ?_⟩
    · intro rest
      simp only [processItems, he]
    · exact ⟨"Found duplicate keys with different values:\n" ++ "Key: ",
        "\n" ++ "Value 1: " ++ existing.value ++ "\n" ++ "Value 2: " ++
          item.value ++ " (in file " ++ path ++ ")",
        by simp [conflictMsg, String.append_assoc]⟩
    · exact ⟨"Found duplicate keys with different values:\n" ++ "Key: " ++
          item.key ++ "\n" ++ "Value 1: ",
        "\n" ++ "Value 2: " ++ item.value ++ " (in file " ++ path ++ ")",
        by simp [conflictMsg, String.append_assoc]⟩
    · exact ⟨"Found duplicate keys with different values:\n" ++ "Key: " ++
          item.key ++ "\n" ++ "Value 1: " ++ existing.value ++ "\n" ++
          "Value 2: ",
        " (in file " ++ path ++ ")",
        by simp [conflictMsg, String.append_assoc]⟩
    · exact ⟨"Found duplicate keys with different values:\n" ++ "Key: " ++
          item.key ++ "\n" ++ "Value 1: " ++ existing.value ++ "\n" ++
          "Value 2: " ++ item.value ++ " (in file ",
        ")",
        by simp [conflictMsg, String.append_assoc]⟩
  · intro hi
    exact ⟨processItem_conflict_lenient opts path st item existing hseen hne hi, rfl⟩
  · simp [processItemLegacy, hseen, hne]

theorem C1_witness :
    processItem defaultOptions "b.json" [("k", ⟨"k", "v1", none⟩)]
        ⟨"k", "v2", none⟩ =
      .error (conflictMsg "k" "v1" "v2" "b.json") := by
  have h := (C1_amended_conflict defaultOptions "b.json" [("k", ⟨"k", "v1", none⟩)]
    ⟨"k", "v2", none⟩ ⟨"k", "v1", none⟩ (by decide) (by decide)).1 rfl
  exact h.1

/-- C2: when an entry's key was already seen with an equal value, the stored
entry's context is empty (absent or the empty string) and the new entry's
context is a non-empty string `C`: with `mergeContext` enabled the stored
entry's context becomes `C` (so the merged entry's context equals `C`) and a
diagnostic is emitted; with `mergeContext` disabled the state is unchanged,
so the merged entry's context remains empty. -/
theorem C2_context_backfill (opts : Options) (path : String) (st : MergeState)
    (item existing : TranslationItem) (C : String)
    (hseen : getItem st item.key = some existing)
    (hv : existing.value = item.value)
    (hempty : ctxTruthy existing.context = false)
    (hC : item.context = some C) (hCne : C ≠ "") :
    (opts.mergeContext = true →
      processItem opts path st item =
        .ok (setContext st item.key (some C), [.pulledContext item.key C]) ∧
      getItem (setContext st item.key (some C)) item.key =
        some { existing with context := some C }) ∧
    (opts.mergeContext = false →
      processItem opts path st item = .ok (st, [.skipDuplicate item.key]) ∧
      getItem st item.key = some existing) := by
  have hCe : C.isEmpty = false := by
    cases hE : C.isEmpty
    · rfl
    · exact absurd ((String.isEmpty_iff C).mp hE) hCne
  have hct : ctxTruthy item.context = true := by
    rw [hC]
    simp [ctxTruthy, hCe]
  constructor
  · intro hm
    have hc : (opts.mergeContext && !ctxTruthy existing.context
        && ctxTruthy item.context) = true := by
      simp [hm, hempty, hct]
    have hp := processItem_pull opts path st item existing hseen hv hc
    rw [hC] at hp
    constructor
    · simpa using hp
    · rw [getItem_setContext_eq, hseen]
      simp
  · intro hm
    have hc : (opts.mergeContext && !ctxTruthy existing.context
        && ctxTruthy item.context) = false := by
      simp [hm]
    exact ⟨processItem_skip opts path st item existing hseen hv hc, hseen⟩

theorem C2_witness :
    processItem defaultOptions "p" [("k", ⟨"k", "v", some ""⟩)]
        ⟨"k", "v", some "c"⟩ =
      .ok ([("k", ⟨"k", "v", some "c"⟩)], [.pulledContext "k" "c"]) := by
  have h := ((C2_context_backfill defaultOptions "p" [("k", ⟨"k", "v", some ""⟩)]
    ⟨"k", "v", some "c"⟩ ⟨"k", "v", some ""⟩ "c" (by decide) rfl rfl rfl
    (by decide)).1 rfl).1
  exact h

/-- C8 counterexample: a run over a single file whose only entry has no
`context` property outputs that entry with `context` still absent — the
serialized entry has no `context` field at all (`itemJsonFields` lists only
`key` and `value`), rather than a `context` field holding the empty
string. -/
theorem C8_counterexample :
    main lcLen defaultOptions [⟨"a.json", .ok (.arr [⟨"k", "v", none⟩])⟩] =
      .ok ({ language := "EN", translations := [⟨"k", "v", none⟩] }, []) ∧
    itemJsonFields ⟨"k", "v", none⟩ = [("key", "k"), ("value", "v")] ∧
    (⟨"k", "v", none⟩ : TranslationItem).context ≠ some "" := by
  exact ⟨by decide, rfl, by decide⟩

/-- C8 (amended): an input entry with a missing `context` property is treated
by all duplicate-handling decisions exactly as if its context were the empty
string (both are falsy), but it is not rewritten: a first-seen entry is
stored as-is, and its serialized output omits the `context` field instead of
containing an empty string. -/
theorem C8_amended_missing_context (opts : Options) (path : String)
    (st : MergeState) (item : TranslationItem) (h : item.context = none) :
    ((getItem st item.key).isSome = true →
      processItem opts path st item =
        processItem opts path st { item with context := some "" }) ∧
    (getItem st item.key = none →
      processItem opts path st item = .ok (insertItem st item.key item, []) ∧
      itemJsonFields item = [("key", item.key), ("value", item.value)]) := by
  constructor
  · intro hs
    obtain ⟨existing, hg⟩ := Option.isSome_iff_exists.mp hs
    by_cases hv : existing.value = item.value
    · have hc1 : (opts.mergeContext && !ctxTruthy existing.context
          && ctxTruthy item.context) = false := by
        simp [h, ctxTruthy]
      have hc2 : (opts.mergeContext && !ctxTruthy existing.context
          && ctxTruthy (some "")) = false := by
        simp [ctxTruthy, String.isEmpty_iff]
      rw [processItem_skip opts path st item existing hg hv hc1,
        processItem_skip opts path st { item with context := some "" } existing hg hv hc2]
    · cases hi : opts.ignoreErrors with
      | false =>
          rw [processItem_conflict_strict opts path st item existing hg hv hi,
            processItem_conflict_strict opts path st { item with context := some "" }
              existing hg hv hi]
      | true =>
          rw [processItem_conflict_lenient opts path st item existing hg hv hi,
            processItem_conflict_lenient opts path st { item with context := some "" }
              existing hg hv hi]
  · intro hg
    refine ⟨processItem_not_seen _ _ _ _ hg, ?_⟩
    simp [itemJsonFields, h]

theorem C8_witness :
    processItem defaultOptions "p" [("k", ⟨"k", "w", none⟩)] ⟨"k", "v", none⟩ =
      processItem defaultOptions "p" [("k", ⟨"k", "w", none⟩)]
        ⟨"k", "v", some ""⟩ := by
  exact (C8_amended_missing_context defaultOptions "p" [("k", ⟨"k", "w", none⟩)]
    ⟨"k", "v", none⟩ rfl).1 rfl

/-- C9: over any completed fold (any options, any files, any starting
state), the entry stored under a key is never replaced: its `key` and
`value` fields are exactly those of the first-seen entry; only the `context`
field can differ (via the `mergeContext` backfill). -/
theorem C9_frame (opts : Options) (files : List InputFile) (st st' : MergeState)
    (log : List Diag) (h : runFiles opts st files = .ok (st', log))
    (k : String) (old : TranslationItem) (hk : getItem st k = some old) :
    ∃ new, getItem st' k = some new ∧ new.key = old.key ∧ new.value = old.value :=
  getItem_runFiles_ok opts files st st' log h k old hk

theorem C9_witness :
    ∃ new, getItem [("k", ⟨"k", "v", some "c"⟩)] "k" = some new ∧
      new.key = "k" ∧ new.value = "v" := by
  exact C9_frame defaultOptions [⟨"a.json", .ok (.arr [⟨"k", "v", some "c"⟩])⟩]
    [("k", ⟨"k", "v", none⟩)] [("k", ⟨"k", "v", some "c"⟩)]
    [.pulledContext "k" "c"] (by decide) "k" ⟨"k", "v", none⟩ (by decide)

/-- C10 counterexample: a file that parses as JSON but whose `translations`
property is a truthy non-array, non-iterable value (e.g. a number or a plain
object) makes the `for...of` loop throw a `TypeError` that nothing catches:
the merge aborts in lenient mode and in strict mode alike, contradicting the
claim that such a file contributes zero entries without aborting. -/
theorem C10_counterexample :
    main lcLen { defaultOptions with ignoreErrors := true }
        [⟨"a.json", .ok .nonIterable⟩] =
      .error "TypeError: items is not iterable" ∧
    main lcLen defaultOptions [⟨"a.json", .ok .nonIterable⟩] =
      .error "TypeError: items is not iterable" := by
  exact ⟨by decide, by decide⟩

/-- C10 (amended): for every input file that parses successfully as JSON but
whose `translations` value is absent or falsy (a `null` or `{}` document, or
a missing, `null`, or otherwise falsy `translations` field), the file
contributes zero entries and no diagnostics, and the run is identical — in
both modes — to the run without that file.  (A truthy non-iterable
`translations` value — a number, a boolean, or a plain object — instead
raises an uncaught `TypeError` that aborts the run in both modes, as the
counterexample shows; a truthy iterable non-array value such as a JSON
string is iterated element by element and is outside this claim.) -/
theorem C10_amended_absent_translations (opts : Options) (st : MergeState)
    (f : InputFile) (fs₁ fs₂ : List InputFile) (h : f.data = .ok .absent) :
    runFiles opts st (fs₁ ++ f :: fs₂) = runFiles opts st (fs₁ ++ fs₂) := by
  have e1 := runFiles_append opts st fs₁ (f :: fs₂)
  have e2 := runFiles_append opts st fs₁ fs₂
  cases h1 : runFiles opts st fs₁ with
  | error e =>
      simp only [h1] at e1 e2
      rw [e1, e2]
  | ok p =>
      obtain ⟨s1, l1⟩ := p
      simp only [h1] at e1 e2
      rw [e1, e2, runFiles_cons_absent opts s1 f fs₂ h]

theorem C10_witness :
    runFiles defaultOptions []
        [⟨"a.json", .ok (.arr [⟨"k", "v", none⟩])⟩, ⟨"b.json", .ok .absent⟩] =
      runFiles defaultOptions [] [⟨"a.json", .ok (.arr [⟨"k", "v", none⟩])⟩] := by
  exact C10_amended_absent_translations defaultOptions []
    ⟨"b.json", .ok .absent⟩ [⟨"a.json", .ok (.arr [⟨"k", "v", none⟩])⟩] [] rfl

/-- C5: for a file whose read or JSON parse fails: in strict mode, once the
run reaches it (the files before it processed successfully), the whole merge
aborts with the load error; in lenient mode the file contributes zero
entries — the state is unchanged and only a warning diagnostic is emitted —
and the merge of the remaining files proceeds unchanged (the final state is
that of the run without the failed file). -/
theorem C5_load_failure (opts : Options) (st : MergeState) (path msg : String)
    (fs₁ fs₂ : List InputFile) :
    (opts.ignoreErrors = false →
      ∀ st1 log1, runFiles opts st fs₁ = .ok (st1, log1) →
        runFiles opts st (fs₁ ++ (⟨path, .error msg⟩ : InputFile) :: fs₂) =
          .error (loadErrorMsg path msg)) ∧
    (opts.ignoreErrors = true →
      processFile opts st ⟨path, .error msg⟩ =
        .ok (st, [.loadWarning path msg]) ∧
      (runFiles opts st (fs₁ ++ (⟨path, .error msg⟩ : InputFile) :: fs₂)).map
          Prod.fst =
        (runFiles opts st (fs₁ ++ fs₂)).map Prod.fst) := by
  constructor
  · intro hi st1 log1 h1
    have e1 := runFiles_append opts st fs₁ ((⟨path, .error msg⟩ : InputFile) :: fs₂)
    simp only [h1] at e1
    have hc := runFiles_cons_error opts st1 ⟨path, .error msg⟩ fs₂ _
      (processFile_loadError_strict opts st1 ⟨path, .error msg⟩ msg rfl hi)
    simp only [hc] at e1
    exact e1
  · intro hi
    refine ⟨processFile_loadError_lenient opts st ⟨path, .error msg⟩ msg rfl hi, ?_⟩
    have e1 := runFiles_append opts st fs₁ ((⟨path, .error msg⟩ : InputFile) :: fs₂)
    have e2 := runFiles_append opts st fs₁ fs₂
    cases h1 : runFiles opts st fs₁ with
    | error e =>
        simp only [h1] at e1 e2
        rw [e1, e2]
    | ok p =>
        obtain ⟨s1, l1⟩ := p
        simp only [h1] at e1 e2
        rw [e1, e2, runFiles_cons_loadWarning opts s1 ⟨path, .error msg⟩ fs₂ msg rfl hi]
        cases h2 : runFiles opts s1 fs₂ with
        | error e => simp [h2, Except.map]
        | ok q =>
            obtain ⟨s2, l2⟩ := q
            simp [h2, Except.map]

theorem C5_witness :
    runFiles defaultOptions []
        ([] ++ (⟨"x.json", .error "bad"⟩ : InputFile) :: []) =
      .error (loadErrorMsg "x.json" "bad") := by
  exact (C5_load_failure defaultOptions [] "x.json" "bad" [] []).1 rfl [] []
    (by decide)

/-- C7 counterexample: a single input file that lists the same key twice
with the same value.  Pairwise disjointness of the files' key sets holds
trivially (there is one file), yet the merged output has one entry while the
input entry counts sum to two, so the output count does not equal the sum.
A further conjunct shows a second failure mode under full JavaScript object
semantics: even with all keys distinct, a strict run over a single entry
whose key names the inherited `Object.prototype` member `toString` aborts on
a spurious conflict (against the inherited method, whose `.value` is
`undefined`), so distinct keys alone do not guarantee the union either. -/
theorem C7_counterexample :
    List.Pairwise (fun f g => ∀ k ∈ fileKeys f, k ∉ fileKeys g)
      [(⟨"a.json", .ok (.arr [⟨"k", "v", none⟩, ⟨"k", "v", none⟩])⟩ : InputFile)] ∧
    main lcLen defaultOptions
        [⟨"a.json", .ok (.arr [⟨"k", "v", none⟩, ⟨"k", "v", none⟩])⟩] =
      .ok ({ language := "EN", translations := [⟨"k", "v", none⟩] },
        [.skipDuplicate "k"]) ∧
    ([(⟨"a.json", .ok (.arr [⟨"k", "v", none⟩, ⟨"k", "v", none⟩])⟩ : InputFile)].map
      fun f => (fileEntries f).length).sum = 2 ∧
    jsMain lcLen defaultOptions [⟨"b.json", .ok (.arr [⟨"toString", "v", none⟩])⟩] =
      .error (conflictMsg "toString" "undefined" "v" "b.json") := by
  exact ⟨by simp, by decide, by decide, by decide⟩

theorem processItem_md5_agnostic (opts₁ opts₂ : Options)
    (hie : opts₁.ignoreErrors = opts₂.ignoreErrors)
    (hmc : opts₁.mergeContext = opts₂.mergeContext) (path : String)
    (st : MergeState) (item : TranslationItem) :
    processItem opts₁ path st item = processItem opts₂ path st item := by
  unfold processItem
  rw [hie, hmc]

theorem processItems_md5_agnostic (opts₁ opts₂ : Options)
    (hie : opts₁.ignoreErrors = opts₂.ignoreErrors)
    (hmc : opts₁.mergeContext = opts₂.mergeContext) (path : String)
    (items : List TranslationItem) :
    ∀ st, processItems opts₁ path st items = processItems opts₂ path st items := by
  induction items with
  | nil => intro st; rfl
  | cons item rest ih =>
      intro st
      simp only [processItems,
        processItem_md5_agnostic opts₁ opts₂ hie hmc path st item, ih]

theorem processFile_md5_agnostic (opts₁ opts₂ : Options)
    (hie : opts₁.ignoreErrors = opts₂.ignoreErrors)
    (hmc : opts₁.mergeContext = opts₂.mergeContext) (st : MergeState)
    (f : InputFile) :
    processFile opts₁ st f = processFile opts₂ st f := by
  unfold processFile
  rw [hie]
  simp only [processItems_md5_agnostic opts₁ opts₂ hie hmc]

theorem runFiles_md5_agnostic (opts₁ opts₂ : Options)
    (hie : opts₁.ignoreErrors = opts₂.ignoreErrors)
    (hmc : opts₁.mergeContext = opts₂.mergeContext) (files : List InputFile) :
    ∀ st, runFiles opts₁ st files = runFiles opts₂ st files := by
  induction files with
  | nil => intro st; rfl
  | cons f fs ih =>
      intro st
      simp only [runFiles, processFile_md5_agnostic opts₁ opts₂ hie hmc st f, ih]

/-- C6: in the md5 variant, the output document is identical whether
`md5Check` is enabled or disabled (the validation pass never alters the
result), and in a completed run with `md5Check` enabled, a hash-mismatch
diagnostic for an output entry appears in the log exactly when the entry's
key differs from the hash of its value. -/
theorem C6_md5_check (lc : String → String → Int) (md5 : String → String)
    (opts : Options) (files : List InputFile) :
    (mainMd5 lc md5 { opts with md5Check := true } files).map (fun r => r.1) =
      (mainMd5 lc md5 { opts with md5Check := false } files).map (fun r => r.1) ∧
    ∀ doc log, mainMd5 lc md5 opts files = .ok (doc, log) →
      opts.md5Check = true →
      ∀ t ∈ doc.translations,
        (Diag.hashMismatch t.value (md5 t.value) t.key ∈ log ↔
          t.key ≠ md5 t.value) := by
  constructor
  · have hr : runFiles { opts with md5Check := true } [] files =
        runFiles { opts with md5Check := false } [] files :=
      runFiles_md5_agnostic { opts with md5Check := true }
        { opts with md5Check := false } rfl rfl files []
    unfold mainMd5
    rw [hr]
    cases hrun : runFiles { opts with md5Check := false } [] files with
    | error e => simp [Except.map]
    | ok p =>
        obtain ⟨st, mlog⟩ := p
        simp [Except.map]
  · intro doc log h hmd t ht
    unfold mainMd5 at h
    cases hrun : runFiles opts [] files with
    | error e =>
        simp only [hrun] at h
        exact absurd h (by simp)
    | ok p =>
        obtain ⟨st, mlog⟩ := p
        simp only [hrun, hmd, if_true, Except.ok.injEq, Prod.mk.injEq] at h
        obtain ⟨hdoc, hlog⟩ := h
        rw [← hdoc] at ht
        simp only at ht
        constructor
        · intro hmem
          rw [← hlog] at hmem
          rcases List.mem_append.mp hmem with hm | hm
          · exact absurd hm (runFiles_log_no_hash _ _ _ _ _ hrun _ _ _)
          · unfold hashCheckLog at hm
            obtain ⟨u, hu, hueq⟩ := List.mem_map.mp hm
            have hufil := (List.mem_filter.mp hu).2
            injection hueq with e1 e2 e3
            intro hk
            apply (by simpa using hufil : ¬u.key = md5 u.value)
            rw [e3, hk, ← e2]
        · intro hne
          rw [← hlog]
          refine List.mem_append.mpr (Or.inr ?_)
          unfold hashCheckLog
          exact List.mem_map.mpr ⟨t, List.mem_filter.mpr ⟨ht, by simpa using hne⟩, rfl⟩

theorem C6_witness :
    (Diag.hashMismatch "v1" (md5Stub "v1") "k1" ∈
        ([.hashMismatch "v1" (md5Stub "v1") "k1"] : List Diag)) ↔
      "k1" ≠ md5Stub "v1" := by
  exact (C6_md5_check lcLen md5Stub defaultOptions
    [⟨"a.json", .ok (.arr [⟨"k1", "v1", none⟩])⟩]).2
    { language := "EN", translations := [⟨"k1", "v1", none⟩] }
    [.hashMismatch "v1" (md5Stub "v1") "k1"] (by decide) rfl
    ⟨"k1", "v1", none⟩ (by decide)

theorem jsProcessItem_seen (opts : Options) (path : String) (st : MergeState)
    (item existing : TranslationItem) (hg : getItem st item.key = some existing) :
    jsProcessItem opts path st item = processItem opts path st item := by
  unfold jsProcessItem processItem
  rw [hg]

theorem jsProcessItem_fresh (opts : Options) (path : String) (st : MergeState)
    (item : TranslationItem) (hg : getItem st item.key = none)
    (hp : item.key ∉ objectProtoProps) :
    jsProcessItem opts path st item = .ok (insertItem st item.key item, []) := by
  simp [jsProcessItem, hg, hp]

theorem jsProcessItem_proto_strict (opts : Options) (path : String)
    (st : MergeState) (item : TranslationItem) (hg : getItem st item.key = none)
    (hp : item.key ∈ objectProtoProps) (hi : opts.ignoreErrors = false) :
    jsProcessItem opts path st item =
      .error (conflictMsg item.key "undefined" item.value path) := by
  simp [jsProcessItem, hg, hp, hi]

theorem jsProcessItem_proto_lenient (opts : Options) (path : String)
    (st : MergeState) (item : TranslationItem) (hg : getItem st item.key = none)
    (hp : item.key ∈ objectProtoProps) (hi : opts.ignoreErrors = true) :
    jsProcessItem opts path st item =
      .ok (st, [.conflictWarning item.key "undefined" item.value path]) := by
  simp [jsProcessItem, hg, hp, hi]

theorem jsProcessItem_eq (opts : Options) (path : String) (st : MergeState)
    (item : TranslationItem) (hp : item.key ∉ objectProtoProps) :
    jsProcessItem opts path st item = processItem opts path st item := by
  cases hg : getItem st item.key with
  | some existing => exact jsProcessItem_seen _ _ _ _ _ hg
  | none => rw [jsProcessItem_fresh _ _ _ _ hg hp, processItem_not_seen _ _ _ _ hg]

theorem jsProcessItem_ok (opts : Options) (path : String) (st : MergeState)
    (item : TranslationItem) (st' : MergeState) (log : List Diag)
    (h : jsProcessItem opts path st item = .ok (st', log)) :
    (getItem st item.key = none ∧ item.key ∉ objectProtoProps ∧
      st' = insertItem st item.key item) ∨
    st' = st ∨
    ((getItem st item.key).isSome = true ∧
      st' = setContext st item.key item.context) := by
  cases hg : getItem st item.key with
  | none =>
      by_cases hp : item.key ∈ objectProtoProps
      · cases hi : opts.ignoreErrors with
        | false =>
            rw [jsProcessItem_proto_strict _ _ _ _ hg hp hi] at h
            exact absurd h (by simp)
        | true =>
            rw [jsProcessItem_proto_lenient _ _ _ _ hg hp hi] at h
            simp only [Except.ok.injEq, Prod.mk.injEq] at h
            exact Or.inr (Or.inl h.1.symm)
      · rw [jsProcessItem_fresh _ _ _ _ hg hp] at h
        simp only [Except.ok.injEq, Prod.mk.injEq] at h
        exact Or.inl ⟨rfl, hp, h.1.symm⟩
  | some existing =>
      rw [jsProcessItem_seen _ _ _ _ _ hg] at h
      rcases processItem_ok _ _ _ _ _ _ h with ⟨hn, -⟩ | ⟨hs, (rfl | rfl)⟩
      · rw [hg] at hn
        exact absurd hn (by simp)
      · exact Or.inr (Or.inl rfl)
      · exact Or.inr (Or.inr ⟨by simp [hg], rfl⟩)

theorem jsStateKeys_processItem_ok (opts : Options) (path : String)
    (st : MergeState) (item : TranslationItem) (st' : MergeState)
    (log : List Diag) (h : jsProcessItem opts path st item = .ok (st', log)) :
    stateKeys st' = stateKeys st ∨
      (item.key ∉ stateKeys st ∧ stateKeys st' = stateKeys st ++ [item.key]) := by
  rcases jsProcessItem_ok _ _ _ _ _ _ h with ⟨hg, hp, rfl⟩ | rfl | ⟨hs, rfl⟩
  · exact Or.inr ⟨(getItem_eq_none_iff _ _).mp hg, stateKeys_insertItem _ _ _⟩
  · exact Or.inl rfl
  · exact Or.inl (stateKeys_setContext _ _ _)

theorem jsNodup_processItem_ok (opts : Options) (path : String)
    (st : MergeState) (item : TranslationItem) (st' : MergeState)
    (log : List Diag) (h : jsProcessItem opts path st item = .ok (st', log))
    (hn : (stateKeys st).Nodup) : (stateKeys st').Nodup := by
  rcases jsStateKeys_processItem_ok _ _ _ _ _ _ h with hk | ⟨hm, hk⟩
  · rwa [hk]
  · rw [hk]
    simp [List.nodup_append, hn, hm]

theorem jsMem_processItem_ok (opts : Options) (path : String) (st : MergeState)
    (item : TranslationItem) (st' : MergeState) (log : List Diag)
    (h : jsProcessItem opts path st item = .ok (st', log)) (k : String)
    (hm : k ∈ stateKeys st) : k ∈ stateKeys st' := by
  rcases jsStateKeys_processItem_ok _ _ _ _ _ _ h with hk | ⟨-, hk⟩
  · rwa [hk]
  · rw [hk]
    exact List.mem_append_left _ hm

theorem jsSelfMem_processItem_ok (opts : Options) (path : String)
    (st : MergeState) (item : TranslationItem) (st' : MergeState)
    (log : List Diag) (h : jsProcessItem opts path st item = .ok (st', log))
    (hp : item.key ∉ objectProtoProps) : item.key ∈ stateKeys st' := by
  cases hg : getItem st item.key with
  | none =>
      rw [jsProcessItem_fresh _ _ _ _ hg hp] at h
      simp only [Except.ok.injEq, Prod.mk.injEq] at h
      rw [← h.1, stateKeys_insertItem]
      exact List.mem_append_right _ (List.mem_singleton_self _)
  | some existing =>
      have hmem : item.key ∈ stateKeys st :=
        (getItem_isSome_iff _ _).mp (by simp [hg])
      exact jsMem_processItem_ok _ _ _ _ _ _ h item.key hmem

theorem jsStateWF_processItem_ok (opts : Options) (path : String)
    (st : MergeState) (item : TranslationItem) (st' : MergeState)
    (log : List Diag) (h : jsProcessItem opts path st item = .ok (st', log))
    (hwf : StateWF st) : StateWF st' := by
  rcases jsProcessItem_ok _ _ _ _ _ _ h with ⟨-, -, rfl⟩ | rfl | ⟨-, rfl⟩
  · exact stateWF_insertItem st item hwf
  · exact hwf
  · exact stateWF_setContext st item.key item.context hwf

theorem jsObjectValues_eq (st : MergeState)
    (h : ∀ k ∈ stateKeys st, isArrayIndex k = false) :
    jsObjectValues st = objectValues st := by
  unfold jsObjectValues objectValues
  have h1 : st.filter (fun kv => isArrayIndex kv.1) = [] :=
    List.filter_eq_nil_iff.mpr fun kv hkv => by
      simp [h kv.1 (List.mem_map_of_mem Prod.fst hkv)]
  have h2 : st.filter (fun kv => !isArrayIndex kv.1) = st :=
    List.filter_eq_self.mpr fun kv hkv => by
      simp [h kv.1 (List.mem_map_of_mem Prod.fst hkv)]
  rw [h1, h2]
  simp [List.insertionSort]

theorem jsObjectValues_perm (st : MergeState) :
    (jsObjectValues st).Perm (objectValues st) := by
  unfold jsObjectValues objectValues
  have hs : ((st.filter fun kv => isArrayIndex kv.1).insertionSort
      fun a b => arrayIndexVal a.1 ≤ arrayIndexVal b.1).Perm
        (st.filter fun kv => isArrayIndex kv.1) :=
    List.perm_insertionSort _ _
  have h1 := (hs.map Prod.snd).append
    (List.Perm.refl ((st.filter fun kv => !isArrayIndex kv.1).map Prod.snd))
  have h2 := (List.filter_append_perm (fun kv => isArrayIndex kv.1) st).map Prod.snd
  rw [List.map_append] at h2
  exact h1.trans h2

theorem jsProcessItems_cons_ok (opts : Options) (path : String)
    (st : MergeState) (item : TranslationItem) (rest : List TranslationItem)
    (st' : MergeState) (log : List Diag)
    (h : jsProcessItems opts path st (item :: rest) = .ok (st', log)) :
    ∃ st1 log1 log2, jsProcessItem opts path st item = .ok (st1, log1) ∧
      jsProcessItems opts path st1 rest = .ok (st', log2) ∧ log = log1 ++ log2 := by
  cases hp : jsProcessItem opts path st item with
  | error e =>
      simp only [jsProcessItems, hp] at h
      exact absurd h (by simp)
  | ok p =>
      obtain ⟨st1, log1⟩ := p
      cases hr : jsProcessItems opts path st1 rest with
      | error e =>
          simp only [jsProcessItems, hp, hr] at h
          exact absurd h (by simp)
      | ok q =>
          obtain ⟨st2, log2⟩ := q
          simp only [jsProcessItems, hp, hr, Except.ok.injEq, Prod.mk.injEq] at h
          exact ⟨st1, log1, log2, rfl, by rw [hr, h.1], h.2.symm⟩

theorem jsProcessItems_nil_ok (opts : Options) (path : String)
    (st st' : MergeState) (log : List Diag)
    (h : jsProcessItems opts path st [] = .ok (st', log)) :
    st' = st ∧ log = [] := by
  simp only [jsProcessItems, Except.ok.injEq, Prod.mk.injEq] at h
  exact ⟨h.1.symm, h.2.symm⟩

theorem jsProcessItems_eq (opts : Options) (path : String)
    (items : List TranslationItem)
    (hp : ∀ it ∈ items, it.key ∉ objectProtoProps) :
    ∀ st, jsProcessItems opts path st items = processItems opts path st items := by
  induction items with
  | nil => intro st; rfl
  | cons item rest ih =>
      intro st
      have ih' := ih fun it hit => hp it (List.mem_cons_of_mem _ hit)
      simp only [jsProcessItems, processItems,
        jsProcessItem_eq opts path st item (hp item (List.mem_cons_self _ _)), ih']

theorem jsNodup_processItems_ok (opts : Options) (path : String)
    (items : List TranslationItem) (st st' : MergeState) (log : List Diag)
    (h : jsProcessItems opts path st items = .ok (st', log))
    (hn : (stateKeys st).Nodup) : (stateKeys st').Nodup := by
  induction items generalizing st log with
  | nil =>
      obtain ⟨rfl, -⟩ := jsProcessItems_nil_ok _ _ _ _ _ h
      exact hn
  | cons item rest ih =>
      obtain ⟨st1, log1, log2, hp, hr, -⟩ := jsProcessItems_cons_ok _ _ _ _ _ _ _ h
      exact ih _ _ hr (jsNodup_processItem_ok _ _ _ _ _ _ hp hn)

theorem jsMem_processItems_ok (opts : Options) (path : String)
    (items : List TranslationItem) (st st' : MergeState) (log : List Diag)
    (h : jsProcessItems opts path st items = .ok (st', log)) (k : String)
    (hm : k ∈ stateKeys st) : k ∈ stateKeys st' := by
  induction items generalizing st log with
  | nil =>
      obtain ⟨rfl, -⟩ := jsProcessItems_nil_ok _ _ _ _ _ h
      exact hm
  | cons item rest ih =>
      obtain ⟨st1, log1, log2, hp, hr, -⟩ := jsProcessItems_cons_ok _ _ _ _ _ _ _ h
      exact ih _ _ hr (jsMem_processItem_ok _ _ _ _ _ _ hp k hm)

theorem jsEntryMem_processItems_ok (opts : Options) (path : String)
    (items : List TranslationItem) (st st' : MergeState) (log : List Diag)
    (h : jsProcessItems opts path st items = .ok (st', log))
    (it : TranslationItem) (hit : it ∈ items)
    (hp : it.key ∉ objectProtoProps) : it.key ∈ stateKeys st' := by
  induction items generalizing st log with
  | nil => exact absurd hit (List.not_mem_nil it)
  | cons item rest ih =>
      obtain ⟨st1, log1, log2, hstep, hr, -⟩ := jsProcessItems_cons_ok _ _ _ _ _ _ _ h
      rcases List.mem_cons.mp hit with rfl | hit
      · exact jsMem_processItems_ok _ _ _ _ _ _ hr it.key
          (jsSelfMem_processItem_ok _ _ _ _ _ _ hstep hp)
      · exact ih _ _ hr hit

theorem jsStateWF_processItems_ok (opts : Options) (path : String)
    (items : List TranslationItem) (st st' : MergeState) (log : List Diag)
    (h : jsProcessItems opts path st items = .ok (st', log)) (hwf : StateWF st) :
    StateWF st' := by
  induction items generalizing st log with
  | nil =>
      obtain ⟨rfl, -⟩ := jsProcessItems_nil_ok _ _ _ _ _ h
      exact hwf
  | cons item rest ih =>
      obtain ⟨st1, log1, log2, hp, hr, -⟩ := jsProcessItems_cons_ok _ _ _ _ _ _ _ h
      exact ih _ _ hr (jsStateWF_processItem_ok _ _ _ _ _ _ hp hwf)

theorem jsProcessFile_eq (opts : Options) (st : MergeState) (f : InputFile)
    (hp : ∀ it ∈ fileEntries f, it.key ∉ objectProtoProps) :
    jsProcessFile opts st f = processFile opts st f := by
  cases hd : f.data with
  | error msg =>
      cases hi : opts.ignoreErrors with
      | false =>
          simp [jsProcessFile, processFile, loadAndParse, hd, hi]
      | true =>
          simp [jsProcessFile, processFile, loadAndParse, hd, hi, itemsOf,
            jsProcessItems, processItems]
  | ok t =>
      cases t with
      | absent =>
          simp [jsProcessFile, processFile, loadAndParse, hd, itemsOf,
            jsProcessItems, processItems]
      | nonIterable =>
          simp [jsProcessFile, processFile, loadAndParse, hd, itemsOf]
      | arr items =>
          have hp' : ∀ it ∈ items, it.key ∉ objectProtoProps := by
            intro it hit
            exact hp it (by simp [fileEntries, hd, hit])
          simp only [jsProcessFile, processFile, loadAndParse, hd, itemsOf,
            jsProcessItems_eq opts f.path items hp' st]

theorem jsProcessFile_loadError_strict (opts : Options) (st : MergeState)
    (f : InputFile) (msg : String) (hd : f.data = .error msg)
    (hi : opts.ignoreErrors = false) :
    jsProcessFile opts st f = .error (loadErrorMsg f.path msg) := by
  simp [jsProcessFile, loadAndParse, hd, hi]

theorem jsProcessFile_loadError_lenient (opts : Options) (st : MergeState)
    (f : InputFile) (msg : String) (hd : f.data = .error msg)
    (hi : opts.ignoreErrors = true) :
    jsProcessFile opts st f = .ok (st, [.loadWarning f.path msg]) := by
  simp [jsProcessFile, loadAndParse, hd, hi, itemsOf, jsProcessItems]

theorem jsProcessFile_absent (opts : Options) (st : MergeState) (f : InputFile)
    (hd : f.data = .ok .absent) : jsProcessFile opts st f = .ok (st, []) := by
  simp [jsProcessFile, loadAndParse, hd, itemsOf, jsProcessItems]

theorem jsProcessFile_nonIterable (opts : Options) (st : MergeState)
    (f : InputFile) (hd : f.data = .ok .nonIterable) :
    jsProcessFile opts st f = .error "TypeError: items is not iterable" := by
  simp [jsProcessFile, loadAndParse, hd, itemsOf]

theorem jsProcessFile_arr (opts : Options) (st : MergeState) (f : InputFile)
    (items : List TranslationItem) (hd : f.data = .ok (.arr items)) :
    jsProcessFile opts st f = jsProcessItems opts f.path st items := by
  simp only [jsProcessFile, loadAndParse, hd, itemsOf]
  cases hr : jsProcessItems opts f.path st items with
  | error e => rfl
  | ok p =>
      obtain ⟨st1, log1⟩ := p
      simp

theorem jsProcessFile_ok (opts : Options) (st : MergeState) (f : InputFile)
    (st' : MergeState) (log : List Diag)
    (h : jsProcessFile opts st f = .ok (st', log)) :
    ∃ log0 log1, jsProcessItems opts f.path st (fileEntries f) = .ok (st', log1) ∧
      log = log0 ++ log1 := by
  cases hd : f.data with
  | error msg =>
      cases hi : opts.ignoreErrors with
      | false =>
          rw [jsProcessFile_loadError_strict _ _ _ _ hd hi] at h
          exact absurd h (by simp)
      | true =>
          rw [jsProcessFile_loadError_lenient _ _ _ _ hd hi] at h
          simp only [Except.ok.injEq, Prod.mk.injEq] at h
          refine ⟨[.loadWarning f.path msg], [], ?_, by simp [h.2.symm]⟩
          rw [show fileEntries f = [] from by simp [fileEntries, hd],
            jsProcessItems, h.1]
  | ok t =>
      cases t with
      | absent =>
          rw [jsProcessFile_absent _ _ _ hd] at h
          simp only [Except.ok.injEq, Prod.mk.injEq] at h
          refine ⟨[], [], ?_, by simp [h.2.symm]⟩
          rw [show fileEntries f = [] from by simp [fileEntries, hd],
            jsProcessItems, h.1]
      | nonIterable =>
          rw [jsProcessFile_nonIterable _ _ _ hd] at h
          exact absurd h (by simp)
      | arr items =>
          rw [jsProcessFile_arr _ _ _ _ hd] at h
          refine ⟨[], log, ?_, by simp⟩
          rw [show fileEntries f = items from by simp [fileEntries, hd]]
          exact h

theorem jsRunFiles_cons_ok (opts : Options) (st : MergeState) (f : InputFile)
    (fs : List InputFile) (st' : MergeState) (log : List Diag)
    (h : jsRunFiles opts st (f :: fs) = .ok (st', log)) :
    ∃ st1 log1 log2, jsProcessFile opts st f = .ok (st1, log1) ∧
      jsRunFiles opts st1 fs = .ok (st', log2) ∧ log = log1 ++ log2 := by
  cases hp : jsProcessFile opts st f with
  | error e =>
      simp only [jsRunFiles, hp] at h
      exact absurd h (by simp)
  | ok p =>
      obtain ⟨st1, log1⟩ := p
      cases hr : jsRunFiles opts st1 fs with
      | error e =>
          simp only [jsRunFiles, hp, hr] at h
          exact absurd h (by simp)
      | ok q =>
          obtain ⟨st2, log2⟩ := q
          simp only [jsRunFiles, hp, hr, Except.ok.injEq, Prod.mk.injEq] at h
          exact ⟨st1, log1, log2, rfl, by rw [hr, h.1], h.2.symm⟩

theorem jsRunFiles_nil_ok (opts : Options) (st st' : MergeState)
    (log : List Diag) (h : jsRunFiles opts st [] = .ok (st', log)) :
    st' = st ∧ log = [] := by
  simp only [jsRunFiles, Except.ok.injEq, Prod.mk.injEq] at h
  exact ⟨h.1.symm, h.2.symm⟩

theorem jsRunFiles_eq (opts : Options) (files : List InputFile)
    (hp : ∀ it ∈ allEntries files, it.key ∉ objectProtoProps) :
    ∀ st, jsRunFiles opts st files = runFiles opts st files := by
  induction files with
  | nil => intro st; rfl
  | cons f fs ih =>
      intro st
      have hf : ∀ it ∈ fileEntries f, it.key ∉ objectProtoProps := fun it hit =>
        hp it (by rw [allEntries]; exact List.mem_append_left _ hit)
      have ih' := ih fun it hit =>
        hp it (by rw [allEntries]; exact List.mem_append_right _ hit)
      simp only [jsRunFiles, runFiles, jsProcessFile_eq opts st f hf, ih']

theorem jsNodup_runFiles_ok (opts : Options) (files : List InputFile)
    (st st' : MergeState) (log : List Diag)
    (h : jsRunFiles opts st files = .ok (st', log))
    (hn : (stateKeys st).Nodup) : (stateKeys st').Nodup := by
  induction files generalizing st log with
  | nil =>
      obtain ⟨rfl, -⟩ := jsRunFiles_nil_ok _ _ _ _ h
      exact hn
  | cons f fs ih =>
      obtain ⟨st1, log1, log2, hpf, hr, -⟩ := jsRunFiles_cons_ok _ _ _ _ _ _ h
      obtain ⟨log0, logi, hitems, -⟩ := jsProcessFile_ok _ _ _ _ _ hpf
      exact ih _ _ hr (jsNodup_processItems_ok _ _ _ _ _ _ hitems hn)

theorem jsMem_runFiles_ok (opts : Options) (files : List InputFile)
    (st st' : MergeState) (log : List Diag)
    (h : jsRunFiles opts st files = .ok (st', log)) (k : String)
    (hm : k ∈ stateKeys st) : k ∈ stateKeys st' := by
  induction files generalizing st log with
  | nil =>
      obtain ⟨rfl, -⟩ := jsRunFiles_nil_ok _ _ _ _ h
      exact hm
  | cons f fs ih =>
      obtain ⟨st1, log1, log2, hpf, hr, -⟩ := jsRunFiles_cons_ok _ _ _ _ _ _ h
      obtain ⟨log0, logi, hitems, -⟩ := jsProcessFile_ok _ _ _ _ _ hpf
      exact ih _ _ hr (jsMem_processItems_ok _ _ _ _ _ _ hitems k hm)

theorem jsEntryMem_runFiles_ok (opts : Options) (files : List InputFile)
    (st st' : MergeState) (log : List Diag)
    (h : jsRunFiles opts st files = .ok (st', log)) (it : TranslationItem)
    (hit : it ∈ allEntries files) (hp : it.key ∉ objectProtoProps) :
    it.key ∈ stateKeys st' := by
  induction files generalizing st log with
  | nil => exact absurd hit (List.not_mem_nil it)
  | cons f fs ih =>
      obtain ⟨st1, log1, log2, hpf, hr, -⟩ := jsRunFiles_cons_ok _ _ _ _ _ _ h
      obtain ⟨log0, logi, hitems, -⟩ := jsProcessFile_ok _ _ _ _ _ hpf
      rw [allEntries] at hit
      rcases List.mem_append.mp hit with hit | hit
      · exact jsMem_runFiles_ok _ _ _ _ _ hr it.key
          (jsEntryMem_processItems_ok _ _ _ _ _ _ hitems it hit hp)
      · exact ih _ _ hr hit

theorem jsStateWF_runFiles_ok (opts : Options) (files : List InputFile)
    (st st' : MergeState) (log : List Diag)
    (h : jsRunFiles opts st files = .ok (st', log)) (hwf : StateWF st) :
    StateWF st' := by
  induction files generalizing st log with
  | nil =>
      obtain ⟨rfl, -⟩ := jsRunFiles_nil_ok _ _ _ _ h
      exact hwf
  | cons f fs ih =>
      obtain ⟨st1, log1, log2, hpf, hr, -⟩ := jsRunFiles_cons_ok _ _ _ _ _ _ h
      obtain ⟨log0, logi, hitems, -⟩ := jsProcessFile_ok _ _ _ _ _ hpf
      exact ih _ _ hr (jsStateWF_processItems_ok _ _ _ _ _ _ hitems hwf)

theorem jsMain_ok (lc : String → String → Int) (opts : Options)
    (files : List InputFile) (doc : TranslationObject) (log : List Diag)
    (h : jsMain lc opts files = .ok (doc, log)) :
    ∃ st, jsRunFiles opts [] files = .ok (st, log) ∧ doc.language = "EN" ∧
      doc.translations =
        (if opts.sort then sortTranslations lc (jsObjectValues st)
         else jsObjectValues st) := by
  unfold jsMain at h
  cases hr : jsRunFiles opts [] files with
  | error e =>
      rw [hr] at h
      exact absurd h (by simp)
  | ok p =>
      obtain ⟨st, log1⟩ := p
      rw [hr] at h
      simp only [Except.ok.injEq, Prod.mk.injEq] at h
      obtain ⟨hdoc, hlog⟩ := h
      subst hlog
      exact ⟨st, rfl, by rw [← hdoc], by rw [← hdoc]⟩

/-- C3 counterexample: with sorting disabled, JavaScript `Object.values`
still enumerates array-index-like own keys first, in ascending numeric
order.  A run whose keys are first seen in the order `"b"`, `"1"` outputs
them in the order `"1"`, `"b"`, so the no-sort output order is not the
first-seen order. -/
theorem C3_counterexample :
    jsMain lcLen { defaultOptions with sort := false }
        [⟨"a.json", .ok (.arr [⟨"b", "v", none⟩, ⟨"1", "w", none⟩])⟩] =
      .ok ({ language := "EN",
             translations := [⟨"1", "w", none⟩, ⟨"b", "v", none⟩] }, []) ∧
    firstSeenKeys ((allEntries
      [⟨"a.json", .ok (.arr [⟨"b", "v", none⟩, ⟨"1", "w", none⟩])⟩]).map
        fun it => it.key) = ["b", "1"] ∧
    (["1", "b"] : List String) ≠ ["b", "1"] := by
  exact ⟨by decide, by decide, by decide⟩

/-- C3 (amended): for every completed run under full JavaScript object
semantics: with the `sort` option enabled the output key sequence is
non-decreasing under the locale comparator (assumed total and transitive, as
a comparator must be), regardless of input order; with `sort` disabled the
output order equals the order in which each key was first seen across the
input files taken in file order, provided no entry key is an
array-index-like string (those are enumerated first, in numeric order) and
no entry key names an inherited `Object.prototype` member (those are never
stored at all). -/
theorem C3_amended_sort_order (lc : String → String → Int) (opts : Options)
    (files : List InputFile) (doc : TranslationObject) (log : List Diag)
    (htot : ∀ a b, lc a b ≤ 0 ∨ lc b a ≤ 0)
    (htrans : ∀ a b c, lc a b ≤ 0 → lc b c ≤ 0 → lc a c ≤ 0)
    (h : jsMain lc opts files = .ok (doc, log)) :
    (opts.sort = true →
      (doc.translations.map fun it => it.key).Pairwise fun a b => lc a b ≤ 0) ∧
    (opts.sort = false →
      (∀ it ∈ allEntries files, it.key ∉ objectProtoProps) →
      (∀ it ∈ allEntries files, isArrayIndex it.key = false) →
      doc.translations.map (fun it => it.key) =
        firstSeenKeys ((allEntries files).map fun it => it.key)) := by
  obtain ⟨st, hrun, hlang, heq⟩ := jsMain_ok lc opts files doc log h
  constructor
  · intro hs
    rw [heq]
    simp only [hs, if_true]
    haveI : IsTotal TranslationItem fun a b => lc a.key b.key ≤ 0 :=
      ⟨fun a b => htot a.key b.key⟩
    haveI : IsTrans TranslationItem fun a b => lc a.key b.key ≤ 0 :=
      ⟨fun a b c => htrans a.key b.key c.key⟩
    have hsorted : (sortTranslations lc (jsObjectValues st)).Pairwise
        fun a b => lc a.key b.key ≤ 0 :=
      List.sorted_insertionSort _ _
    exact List.pairwise_map.mpr hsorted
  · intro hs hproto hindex
    have hrun' : runFiles opts [] files = .ok (st, log) := by
      rw [← jsRunFiles_eq opts files hproto []]
      exact hrun
    have hwf : StateWF st :=
      stateWF_runFiles_ok _ _ _ _ _ hrun' fun p hp => absurd hp (List.not_mem_nil p)
    have hkeys : stateKeys st =
        firstSeenKeys ((allEntries files).map fun it => it.key) := by
      have hk := stateKeys_runFiles_ok _ _ _ _ _ hrun'
      simpa [firstSeenKeys, stateKeys] using hk
    have hidx : ∀ k ∈ stateKeys st, isArrayIndex k = false := by
      intro k hk
      rw [hkeys] at hk
      have hk' : k ∈ (allEntries files).map fun it => it.key := by
        rcases (mem_foldl_addFirstSeen _ [] k).mp hk with h0 | h0
        · exact absurd h0 (List.not_mem_nil k)
        · exact h0
      obtain ⟨it, hit, rfl⟩ := List.mem_map.mp hk'
      exact hindex it hit
    rw [heq]
    simp only [hs, if_false, Bool.false_eq_true]
    rw [jsObjectValues_eq st hidx, objectValues_map_key st hwf, hkeys]

theorem C3_witness :
    (([⟨"b", "v", none⟩, ⟨"c", "w", none⟩] : List TranslationItem).map
      fun it => it.key) =
      firstSeenKeys ((allEntries
        [⟨"a.json", .ok (.arr [⟨"b", "v", none⟩, ⟨"c", "w", none⟩])⟩]).map
          fun it => it.key) := by
  have h := (C3_amended_sort_order lcLen { defaultOptions with sort := false }
    [⟨"a.json", .ok (.arr [⟨"b", "v", none⟩, ⟨"c", "w", none⟩])⟩]
    { language := "EN",
      translations := [⟨"b", "v", none⟩, ⟨"c", "w", none⟩] } []
    (fun a b => by unfold lcLen; omega)
    (fun a b c => by unfold lcLen; omega)
    (by decide)).2 rfl (by decide) (by decide)
  exact h

/-- C4 counterexample: two entries with the equal key `"toString"` and equal
values.  Reading `allItems["toString"]` on a plain object returns the
inherited `Object.prototype.toString` (truthy), so both entries take the
spurious-conflict branch; a lenient run completes with zero entries for that
key, not exactly one. -/
theorem C4_counterexample :
    jsMain lcLen { defaultOptions with ignoreErrors := true }
        [⟨"a.json",
          .ok (.arr [⟨"toString", "v", none⟩, ⟨"toString", "v", none⟩])⟩] =
      .ok ({ language := "EN", translations := [] },
        [.conflictWarning "toString" "undefined" "v" "a.json",
         .conflictWarning "toString" "undefined" "v" "a.json"]) ∧
    (([] : List TranslationItem).map fun it => it.key).count "toString" = 0 := by
  exact ⟨by decide, by decide⟩

/-- C4 (amended): under full JavaScript object semantics, every completed
run of the main variant outputs at most one entry per key (the output key
list is duplicate-free); and for any two input entries with equal key and
equal value whose key does not name an inherited `Object.prototype` member,
that key occurs exactly once in the output.  (A key such as `"toString"`
always reads as an inherited truthy member, is never stored, and so can
appear zero times.) -/
theorem C4_amended_unique_keys (lc : String → String → Int) (opts : Options)
    (files : List InputFile) (doc : TranslationObject) (log : List Diag)
    (h : jsMain lc opts files = .ok (doc, log)) :
    (doc.translations.map fun it => it.key).Nodup ∧
    ∀ it₁ it₂, it₁ ∈ allEntries files → it₂ ∈ allEntries files →
      it₁.key = it₂.key → it₁.value = it₂.value →
      it₁.key ∉ objectProtoProps →
      (doc.translations.map fun it => it.key).count it₁.key = 1 := by
  obtain ⟨st, hrun, hlang, heq⟩ := jsMain_ok lc opts files doc log h
  have hwf : StateWF st :=
    jsStateWF_runFiles_ok _ _ _ _ _ hrun fun p hp => absurd hp (List.not_mem_nil p)
  have hnodup_st : (stateKeys st).Nodup :=
    jsNodup_runFiles_ok _ _ _ _ _ hrun (by simp [stateKeys])
  have hjv : ((jsObjectValues st).map fun it => it.key).Perm (stateKeys st) := by
    have h1 := (jsObjectValues_perm st).map fun it => it.key
    rw [objectValues_map_key st hwf] at h1
    exact h1
  have hperm : (doc.translations.map fun it => it.key).Perm (stateKeys st) := by
    rw [heq]
    cases hs : opts.sort
    · simp only [hs, if_false, Bool.false_eq_true]
      exact hjv
    · simp only [hs, if_true]
      have hp2 := (List.perm_insertionSort
        (fun a b : TranslationItem => lc a.key b.key ≤ 0)
        (jsObjectValues st)).map fun it => it.key
      exact hp2.trans hjv
  have hnodup : (doc.translations.map fun it => it.key).Nodup :=
    hperm.nodup_iff.mpr hnodup_st
  refine ⟨hnodup, ?_⟩
  intro it₁ it₂ h1 h2 hk hv hp
  have hmem : it₁.key ∈ stateKeys st :=
    jsEntryMem_runFiles_ok _ _ _ _ _ hrun it₁ h1 hp
  exact List.count_eq_one_of_mem hnodup (hperm.mem_iff.mpr hmem)

theorem C4_witness :
    (([⟨"x", "v", some "c"⟩] : List TranslationItem).map
      fun it => it.key).count "x" = 1 := by
  exact (C4_amended_unique_keys lcLen defaultOptions
    [⟨"a.json", .ok (.arr [⟨"x", "v", none⟩, ⟨"x", "v", some "c"⟩])⟩]
    { language := "EN", translations := [⟨"x", "v", some "c"⟩] }
    [.pulledContext "x" "c"] (by decide)).2
    ⟨"x", "v", none⟩ ⟨"x", "v", some "c"⟩ (by decide) (by decide) rfl rfl
    (by decide)

/-- C7 (amended): under full JavaScript object semantics, if every input
file is a document whose `translations` value is an array, the keys of all
input entries — across all files and within each file — are pairwise
distinct, and no key names an inherited `Object.prototype` member, then the
run completes and the output is exactly the union of the inputs: it contains
the same entries and its count equals the sum of the input entry counts. -/
theorem C7_amended_disjoint_union (lc : String → String → Int) (opts : Options)
    (files : List InputFile)
    (hdocs : ∀ f ∈ files, ∃ items, f.data = .ok (.arr items))
    (hnd : ((allEntries files).map fun it => it.key).Nodup)
    (hproto : ∀ it ∈ allEntries files, it.key ∉ objectProtoProps) :
    ∃ doc log, jsMain lc opts files = .ok (doc, log) ∧
      doc.translations.length =
        (files.map fun f => (fileEntries f).length).sum ∧
      ∀ it, it ∈ doc.translations ↔ it ∈ allEntries files := by
  have hrun0 := runFiles_fresh opts files [] hdocs
    (by intro it hit; simp [stateKeys]) hnd
  rw [List.nil_append] at hrun0
  have hrun : jsRunFiles opts [] files =
      .ok ((allEntries files).map fun it => (it.key, it), []) := by
    rw [jsRunFiles_eq opts files hproto []]
    exact hrun0
  have hmain : jsMain lc opts files =
      .ok ({ language := "EN",
             translations :=
               if opts.sort = true then
                 sortTranslations lc
                   (jsObjectValues ((allEntries files).map fun it => (it.key, it)))
               else
                 jsObjectValues ((allEntries files).map fun it => (it.key, it)) },
        []) := by
    simp only [jsMain, hrun]
  have hperm0 : (jsObjectValues
      ((allEntries files).map fun it => (it.key, it))).Perm (allEntries files) := by
    have h1 := jsObjectValues_perm ((allEntries files).map fun it => (it.key, it))
    rw [objectValues_pairs] at h1
    exact h1
  have hperm : (if opts.sort = true then
      sortTranslations lc
        (jsObjectValues ((allEntries files).map fun it => (it.key, it)))
    else
      jsObjectValues ((allEntries files).map fun it => (it.key, it))).Perm
        (allEntries files) := by
    cases hs : opts.sort
    · simp only [hs, Bool.false_eq_true, if_false]
      exact hperm0
    · simp only [hs, if_true]
      exact (List.perm_insertionSort _ _).trans hperm0
  refine ⟨_, _, hmain, ?_, ?_⟩
  · exact hperm.length_eq.trans (allEntries_length files)
  · intro it
    exact hperm.mem_iff

theorem C7_witness :
    ∃ doc log, jsMain lcLen defaultOptions
        [⟨"a.json", .ok (.arr [⟨"k1", "v1", none⟩])⟩,
         ⟨"b.json", .ok (.arr [⟨"k2", "v2", none⟩])⟩] = .ok (doc, log) ∧
      doc.translations.length =
        ([(⟨"a.json", .ok (.arr [⟨"k1", "v1", none⟩])⟩ : InputFile),
          ⟨"b.json", .ok (.arr [⟨"k2", "v2", none⟩])⟩].map
          fun f => (fileEntries f).length).sum ∧
      ∀ it, it ∈ doc.translations ↔
        it ∈ allEntries [⟨"a.json", .ok (.arr [⟨"k1", "v1", none⟩])⟩,
          ⟨"b.json", .ok (.arr [⟨"k2", "v2", none⟩])⟩] := by
  exact C7_amended_disjoint_union lcLen defaultOptions
    [⟨"a.json", .ok (.arr [⟨"k1", "v1", none⟩])⟩,
     ⟨"b.json", .ok (.arr [⟨"k2", "v2", none⟩])⟩]
    (by
      intro f hf
      rcases List.mem_cons.mp hf with rfl | hf
      · exact ⟨_, rfl⟩
      rcases List.mem_cons.mp hf with rfl | hf
      · exact ⟨_, rfl⟩
      exact absurd hf (List.not_mem_nil f))
    (by decide) (by decide)

end MergeTranslations

